import Mathlib

/-!
# generator-go: callback-driven generators, `Map`, `MMap`, `Collect`, `Seq`, `Chan`

A shallow embedding of `generator.go`.

* Go closures that read and write captured variables become state-passing
  functions over an explicit program state `σ`: a callback returns its boolean
  together with the state it leaves, a generator maps the state before the run
  to the state after it, a mapper returns its two results and the state.
* The anonymous closures that `Map`, `MMap`, `Collect` and `Seq` hand to the
  generator are named (`mapYield`, `mmapYield`, `collectYield`, `seqYield`), so
  that statements can speak of "the inner callback".
* A generator "that calls its callback on each item in order and returns as soon
  as the callback returns false" is `fromItems`.  Where a statement is about
  every generator, the wiring facts are proved for every function of the
  generator type, and the facts about sequences of invocations for every
  `Script`: a terminating producer body that may call the callback, read and
  update the program state, and continue depending on what it got back.
* Invocations are observed by wrapping a callback in `traced`, which appends
  each invocation (arguments and returned boolean) to a log.
* `Chan` is a transition system: the worker goroutine running the producer
  body, the consumer's `range` loop, the token and the unbuffered channel; an
  execution is an interleaving of their moves, and statements about `Chan` hold
  for every interleaving unless a particular one is named.
-/

namespace generator

/-! ## Data model (generator.go:7-19) -/

/-- Go's `error` interface value; `none` stands for `nil`. -/
abbrev Error := Option String

/-- The type `Yield[T] func(T, error) bool`: the consumer's callback.  It may
read and write the program state `σ`. -/
abbrev Yield (σ T : Type) : Type := T → Error → σ → Bool × σ

/-- The type `Generator[OUT] func(Yield[OUT])`: a producer run against a
callback, transforming the program state. -/
abbrev Generator (σ OUT : Type) : Type := Yield σ OUT → σ → σ

/-- The type `Mapper[IN, OUT] func(IN, error) (OUT, error)`.  A Go mapper is an
ordinary function and may have effects, hence the state. -/
abbrev Mapper (σ IN OUT : Type) : Type := IN → Error → σ → (OUT × Error) × σ

/-! ## Combinators (generator.go:21-45) -/

/-- The closure `func(v IN, err error) bool { return yield(mapper(v, err)) }` that
`Map` hands to the inner generator (generator.go:25-27): `mapper` is evaluated
first, then `yield` on its two results. -/
def mapYield {σ IN OUT : Type} (mapper : Mapper σ IN OUT) (yield : Yield σ OUT) : Yield σ IN :=
  fun v err s =>
    let r := mapper v err s
    yield r.1.1 r.1.2 r.2

/-- The function `Map` (generator.go:23-29). -/
def Map {σ IN OUT : Type} (generator : Generator σ IN) (mapper : Mapper σ IN OUT) :
    Generator σ OUT :=
  fun yield => generator (mapYield mapper yield)

/-- The loop `for _, out := range outs { if !yield(out, err) { return false } }`
followed by `return true` (generator.go:37-42). -/
def rangeYield {σ OUT : Type} (yield : Yield σ OUT) (err : Error) : List OUT → σ → Bool × σ
  | [], s => (true, s)
  | out :: rest, s =>
    let r := yield out err s
    if r.1 then rangeYield yield err rest r.2 else (false, r.2)

/-- The closure that `MMap` hands to the inner generator (generator.go:35-43):
`outs, err := mapper(v, err)` and then the range loop over `outs`. -/
def mmapYield {σ IN OUT : Type} (mapper : Mapper σ IN (List OUT)) (yield : Yield σ OUT) :
    Yield σ IN :=
  fun v err s =>
    let r := mapper v err s
    rangeYield yield r.1.2 r.1.1 r.2

/-- The function `MMap` (generator.go:33-45). -/
def MMap {σ IN OUT : Type} (generator : Generator σ IN) (mapper : Mapper σ IN (List OUT)) :
    Generator σ OUT :=
  fun yield => generator (mmapYield mapper yield)

/-! ## Materializers (generator.go:47-72) -/

/-- The closure of `Collect` (generator.go:51-57).  The captured local `result`
is the second component of the state. -/
def collectYield {σ OUT : Type} : Yield (σ × List OUT) OUT :=
  fun v err st =>
    if err ≠ none then (false, st)
    else (true, (st.1, st.2 ++ [v]))

/-- The method `Collect` (generator.go:49-59): `result` starts empty
(`var result []OUT`) and is returned; the final program state is returned next
to it. -/
def Collect {σ OUT : Type} (g : Generator (σ × List OUT) OUT) (s : σ) : List OUT × σ :=
  let fin := g collectYield (s, [])
  (fin.2, fin.1)

/-- The pull-side callback type `func(OUT) bool` of a range function. -/
abbrev Pull (σ T : Type) : Type := T → σ → Bool × σ

/-- The closure of `Seq` (generator.go:65-70). -/
def seqYield {σ OUT : Type} (yield : Pull σ OUT) : Yield σ OUT :=
  fun v err s =>
    if err ≠ none then (false, s)
    else yield v s

/-- The method `Seq` (generator.go:63-72): the range function it returns. -/
def Seq {σ OUT : Type} (g : Generator σ OUT) : Pull σ OUT → σ → σ :=
  fun yield => g (seqYield yield)

/-! ## Producers -/

/-- The generator that calls its callback on each item of the list in order and
returns as soon as the callback returns false: the shape of `genTest`
(generator_test.go:13-22) and of `gen1M` (example_test.go:8-16),
`for _, it := range items { if !yield(it.v, it.err) { return } }`. -/
def fromItems {σ T : Type} : List (T × Error) → Generator σ T
  | [], _, s => s
  | it :: rest, yield, s =>
    let r := yield it.1 it.2 s
    if r.1 then fromItems rest yield r.2 else r.2

/-- The body of an arbitrary terminating producer over the program state `σ`.
It returns; or it calls the callback on a value and an error and goes on in a
way that may depend on the boolean it got back; or it reads the program state,
updates it, and goes on in a way that may depend on what it read.  Nothing forces
it to stop after a `false`. -/
inductive Script (σ T : Type) where
  | done : Script σ T
  | emit (v : T) (err : Error) (next : Bool → Script σ T) : Script σ T
  | eff (step : σ → σ) (next : σ → Script σ T) : Script σ T

/-- The generator with the given body.  The callback works on the program state
and on variables `α` of its own (its captured locals), out of the producer's
reach. -/
def Script.run {σ α T : Type} : Script σ T → Generator (σ × α) T
  | .done, _, st => st
  | .emit v err next, yield, st =>
    let r := yield v err st
    Script.run (next r.1) yield r.2
  | .eff step next, yield, st =>
    Script.run (next st.1) yield (step st.1, st.2)

/-- The generator with the given body against a callback without variables of
its own. -/
def Script.exec {σ T : Type} : Script σ T → Generator σ T
  | .done, _, s => s
  | .emit v err next, yield, s =>
    let r := yield v err s
    Script.exec (next r.1) yield r.2
  | .eff step next, yield, s =>
    Script.exec (next s) yield (step s)

/-- The producer body of the list generator: offer the items in order, return
after the first `false`. -/
def Script.ofItems {σ T : Type} : List (T × Error) → Script σ T
  | [] => .done
  | it :: rest => .emit it.1 it.2 (fun b => if b then Script.ofItems rest else .done)

/-! ## Effect-free mappers and state extension -/

/-- A mapper without effects: the result depends on the arguments only. -/
def pureMapper {σ IN OUT : Type} (f : IN → Error → OUT × Error) : Mapper σ IN OUT :=
  fun v err s => (f v err, s)

/-- The mapper `mapper` on a state with one more component, which it leaves
alone. -/
def liftMapper {σ α IN OUT : Type} (mapper : Mapper σ IN OUT) : Mapper (σ × α) IN OUT :=
  fun v err st =>
    let r := mapper v err st.1
    (r.1, (r.2, st.2))

/-- The callback `yield` on a state with one more component, which it leaves
alone. -/
def liftYield {σ α T : Type} (yield : Yield σ T) : Yield (σ × α) T :=
  fun v err st =>
    let r := yield v err st.1
    (r.1, (r.2, st.2))

/-- The pure transform `f` as a mapper that also records, at the end of a log kept
next to the state, the arguments of each of its applications. -/
def recordingMapper {σ IN OUT : Type} (f : IN → Error → OUT × Error) :
    Mapper (σ × List (IN × Error)) IN OUT :=
  fun v err st => (f v err, (st.1, st.2 ++ [(v, err)]))

/-! ## Observation of callback invocations -/

/-- One invocation of a callback: the arguments it received and the boolean it
returned. -/
structure Call (T : Type) where
  v : T
  err : Error
  ret : Bool
  deriving DecidableEq, Repr

/-- The arguments of a recorded invocation. -/
def Call.item {T : Type} (c : Call T) : T × Error := (c.v, c.err)

/-- The outer invocation that `Map` with the pure transform `f` makes for an
inner invocation: `f` applied to the arguments, the same boolean. -/
def Call.mapped {IN OUT : Type} (f : IN → Error → OUT × Error) (c : Call IN) : Call OUT :=
  ⟨(f c.v c.err).1, (f c.v c.err).2, c.ret⟩

/-- The callback `yield`, recording each of its invocations at the end of a log
kept next to the state. -/
def traced {σ T : Type} (yield : Yield σ T) : Yield (σ × List (Call T)) T :=
  fun v err st =>
    let r := yield v err st.1
    (r.1, (r.2, st.2 ++ [⟨v, err, r.1⟩]))

/-- The invocations of `yield` made when `g` runs against it from state `s`,
in order. -/
def calls {σ T : Type} (g : Generator (σ × List (Call T)) T) (yield : Yield σ T) (s : σ) :
    List (Call T) :=
  (g (traced yield) (s, [])).2

/-- The pull-side callback `yield`, recording each value it receives and the
boolean it returns at the end of a log kept next to the state. -/
def tracedPull {σ T : Type} (yield : Pull σ T) : Pull (σ × List (T × Bool)) T :=
  fun v st =>
    let r := yield v st.1
    (r.1, (r.2, st.2 ++ [(v, r.1)]))

/-- The invocations of the pull-side callback `yield` made when the range
function `q` runs against it from state `s`, in order. -/
def pulls {σ T : Type}
    (q : Pull (σ × List (T × Bool)) T → σ × List (T × Bool) → σ × List (T × Bool))
    (yield : Pull σ T) (s : σ) : List (T × Bool) :=
  (q (tracedPull yield) (s, [])).2

/-- The invocations of `yield` made by a producer that offers the items in order
and stops after the first `false`. -/
def feed {σ T : Type} (yield : Yield σ T) : List (T × Error) → σ → List (Call T)
  | [], _ => []
  | it :: rest, s =>
    let r := yield it.1 it.2 s
    ⟨it.1, it.2, r.1⟩ :: (if r.1 then feed yield rest r.2 else [])

/-- The invocations of `yield` made when the producer body runs against it from
state `s`, in order. -/
def Script.feed {σ T : Type} : Script σ T → Yield σ T → σ → List (Call T)
  | .done, _, _ => []
  | .emit v err next, yield, s =>
    let r := yield v err s
    ⟨v, err, r.1⟩ :: Script.feed (next r.1) yield r.2
  | .eff step next, yield, s =>
    Script.feed (next s) yield (step s)

/-- The booleans `yield` returns when it is called on the items in order, each
call starting from the state the previous call left. -/
def replies {σ T : Type} (yield : Yield σ T) : List (T × Error) → σ → List Bool
  | [], _ => []
  | it :: rest, s =>
    let r := yield it.1 it.2 s
    r.1 :: replies yield rest r.2

/-- The state `yield` leaves after being called on all the items in order. -/
def afterAll {σ T : Type} (yield : Yield σ T) : List (T × Error) → σ → σ
  | [], s => s
  | it :: rest, s => afterAll yield rest (yield it.1 it.2 s).2

/-- The booleans the pull-side callback returns when it is called on the values
in order, each call starting from the state the previous call left. -/
def pullReplies {σ T : Type} (yield : Pull σ T) : List T → σ → List Bool
  | [], _ => []
  | v :: rest, s =>
    let r := yield v s
    r.1 :: pullReplies yield rest r.2

/-- No invocation is recorded after one that returned false. -/
def NoCallAfterFalse {T : Type} (tr : List (Call T)) : Prop :=
  ∀ (pre : List (Call T)) (c : Call T) (post : List (Call T)),
    tr = pre ++ c :: post → c.ret = false → post = []

/-- How the outer invocations `chunk` made during one inner invocation `c` relate
to it under `MMap` with mapper `m` and outer callback `y`: for the state `s0` in
which the inner callback was entered, `chunk` is what offering the outputs of
`m`, each with the error `m` returned, makes of `y`, and `c` returned what the
range loop returned. -/
def ExpandsTo {σ IN OUT : Type} (m : Mapper σ IN (List OUT)) (y : Yield σ OUT)
    (c : Call IN) (chunk : List (Call OUT)) : Prop :=
  ∃ s0 : σ,
    c.ret = (rangeYield y (m c.v c.err s0).1.2 (m c.v c.err s0).1.1 (m c.v c.err s0).2).1
    ∧ chunk = feed y ((m c.v c.err s0).1.1.map (fun out => (out, (m c.v c.err s0).1.2)))
        (m c.v c.err s0).2

/-! ## Reference results -/

/-- The values of the items before the first item with a non-nil error. -/
def valuesBeforeError {T : Type} (items : List (T × Error)) : List T :=
  (items.takeWhile (fun it => it.2.isNone)).map Prod.fst

/-- The items a one-to-one transform `f` makes of the items of `L`, in order. -/
def mapItems {IN OUT : Type} (f : IN → Error → OUT × Error) (L : List (IN × Error)) :
    List (OUT × Error) :=
  L.map (fun it => f it.1 it.2)

/-- The expansion of one item under a one-to-many transform `f`: the outputs of
`f`, in order, each with the one error `f` returned. -/
def expandItem {IN OUT : Type} (f : IN → Error → List OUT × Error) (it : IN × Error) :
    List (OUT × Error) :=
  (f it.1 it.2).1.map (fun out => (out, (f it.1 it.2).2))

/-- The concatenated expansions of the items of `L`, in order. -/
def expandItems {IN OUT : Type} (f : IN → Error → List OUT × Error) (L : List (IN × Error)) :
    List (OUT × Error) :=
  (L.map (expandItem f)).flatten

/-! ## Fixtures of the test suite (generator_test.go) -/

/-- The items of `genTest` (generator_test.go:19). -/
def genTestItems : List (String × Error) :=
  [("value1", none), ("value2", none), ("value3", none)]

/-- The items of `genTest2E` (generator_test.go:29-31). -/
def genTest2EItems : List (String × Error) :=
  [("value1", none), ("value2", some "some error"), ("value3", none)]

/-- The mapper of `TestMMap` (generator_test.go:261-267): `t` copies of the
decimal representation of `t`, with the incoming error. -/
def repeatDecimal : Nat → Error → List String × Error :=
  fun t err => (List.replicate t (toString t), err)

/-- A consumer that counts its invocations in the state and returns false on
the `limit`-th one, as the callback of `seqToSlice` does
(generator_test.go:57-64). -/
def stopAt {T : Type} (limit : Nat) : Yield Nat T :=
  fun _ _ ind => (ind + 1 != limit, ind + 1)

/-- The pull-side callback of `seqToSlice` (generator_test.go:57-64) with the
state `(result, ind)`: append, count, and return false on the `limit`-th
invocation. -/
def sliceUpTo {T : Type} (limit : Nat) : Pull (List T × Nat) T :=
  fun v st => (st.2 + 1 != limit, (st.1 ++ [v], st.2 + 1))

/-! ## Chan (generator.go:80-98)

`Chan` starts one goroutine, the worker, which runs the generator against a
callback and closes the channel when the generator has returned.  The channel
is unbuffered: a send completes only together with a receive.  The consumer is
the `range` loop of `chanToSlice` (generator_test.go:36-52).  Worker and
consumer run concurrently; an execution is an interleaving of their moves. -/

/-- Where the worker goroutine stands: running what is left of the generator's
body; blocked in `out <- v` inside the callback, which will return true to the
generator once the value is taken; or ended, the generator having returned and
the deferred `close(out)` having run. -/
inductive Worker (σ T : Type) where
  | running (t : Script σ T) : Worker σ T
  | sending (v : T) (next : Bool → Script σ T) : Worker σ T
  | closed : Worker σ T

/-- Where the consumer stands: waiting in a receive; holding a value it has just
received, the loop body not yet run; or past the loop, having found the channel
closed. -/
inductive Receiver (T : Type) where
  | receiving : Receiver T
  | holding (v : T) : Receiver T
  | finished : Receiver T
  deriving DecidableEq, Repr

/-- The state shared by worker and consumer: the program state the generator
works on, whether the cancellation token is signalled (`ctx.Done()` closed),
the two control points, the consumer's `result`, and the record of the worker's
callback invocations. -/
structure ChanState (σ T : Type) where
  world : σ
  cancelled : Bool
  worker : Worker σ T
  receiver : Receiver T
  result : List T
  log : List (Call T)

/-- The moves of an execution: a step of the worker on its own, the handoff of a
value from the blocked worker to the waiting consumer, a step of the consumer on
its own. -/
inductive Move where
  | work : Move
  | handoff : Move
  | consume : Move
  deriving DecidableEq, Repr

/-- One move, `none` when it is not enabled.

* `work`: the worker runs the generator up to its next interaction.  On an
  emission the callback (generator.go:84-95) returns false when `err != nil`,
  returns false when the poll `case <-ctx.Done()` finds the token signalled, and
  otherwise enters the `default` branch and blocks in `out <- v`.  When the
  generator has returned the channel is closed.
* `handoff`: the blocked send meets the consumer's receive; the callback returns
  true.
* `consume`: the loop body of the consumer, `result = append(result, v)` and then
  `cancel()` when `signal` says so for the new `result`; or, when the consumer
  waits on a closed channel, the end of the loop. -/
def ChanState.step {σ T : Type} (signal : List T → Bool) (m : Move) (x : ChanState σ T) :
    Option (ChanState σ T) :=
  match m with
  | .work =>
    match x.worker with
    | .running .done => some { x with worker := .closed }
    | .running (.eff f next) =>
      some { x with world := f x.world, worker := .running (next x.world) }
    | .running (.emit v err next) =>
      if err ≠ none then
        some { x with worker := .running (next false), log := x.log ++ [⟨v, err, false⟩] }
      else if x.cancelled then
        some { x with worker := .running (next false), log := x.log ++ [⟨v, err, false⟩] }
      else some { x with worker := .sending v next }
    | .sending _ _ => none
    | .closed => none
  | .handoff =>
    match x.worker, x.receiver with
    | .sending v next, .receiving =>
      some { x with worker := .running (next true), receiver := .holding v,
                    log := x.log ++ [⟨v, none, true⟩] }
    | _, _ => none
  | .consume =>
    match x.receiver with
    | .holding v =>
      some { x with receiver := .receiving, result := x.result ++ [v],
                    cancelled := x.cancelled || signal (x.result ++ [v]) }
    | .receiving =>
      match x.worker with
      | .closed => some { x with receiver := .finished }
      | _ => none
    | .finished => none

/-- An execution: the moves are made in the given order; a move that is not
enabled leaves the state as it is. -/
def ChanState.exec {σ T : Type} (signal : List T → Bool) :
    List Move → ChanState σ T → ChanState σ T
  | [], x => x
  | m :: ms, x => ChanState.exec signal ms ((x.step signal m).getD x)

/-- The method `Chan` (generator.go:80-98) on a generator with body `t`: the state
right after the call, the worker started and the consumer about to receive.
`cancelled` tells whether the token was already signalled. -/
def Chan {σ T : Type} (t : Script σ T) (cancelled : Bool) (s : σ) : ChanState σ T :=
  { world := s, cancelled := cancelled, worker := .running t, receiver := .receiving,
    result := [], log := [] }

/-- The token is never signalled: the consumer never calls `cancel()`. -/
def neverSignal {T : Type} : List T → Bool := fun _ => false

/-- The worker has ended and the channel is closed. -/
def Worker.isClosed {σ T : Type} : Worker σ T → Bool
  | .closed => true
  | _ => false

/-- The worker is blocked in a send. -/
def Worker.isSending {σ T : Type} : Worker σ T → Bool
  | .sending _ _ => true
  | _ => false

/-- The value the consumer holds, if any. -/
def Receiver.held {T : Type} : Receiver T → List T
  | .receiving => []
  | .holding v => [v]
  | .finished => []

/-- The values the worker will still hand over from program state `s` when every
handoff is taken and the token stays unsignalled: the callback then appends and
continues exactly where the callback of `Collect` does. -/
def Worker.toDeliver {σ T : Type} (w : Worker σ T) (s : σ) : List T :=
  match w with
  | .running t => (t.run collectYield (s, ([] : List T))).2
  | .sending v next => v :: ((next true).run collectYield (s, ([] : List T))).2
  | .closed => []

/-- The callback that returns false whatever it is given and touches nothing. -/
def refuse {σ T : Type} : Yield σ T := fun _ _ s => (false, s)

/-- What is left of the worker's run when every callback invocation returns false
without a handoff: the invocations still to come and the program state at the
end. -/
def Worker.whenRefused {σ T : Type} (w : Worker σ T) (s : σ) : List (Call T) × σ :=
  match w with
  | .running t => (t.feed refuse s, t.exec refuse s)
  | .sending _ _ => ([], s)
  | .closed => ([], s)

/-- Whatever the callback returns, the producer body started in program state
`s` returns in a state that satisfies `P`, the callback leaving the program state
alone as the callback of `Chan` does. -/
def Script.returnsIn {σ T : Type} (P : σ → Prop) : Script σ T → σ → Prop
  | .done, s => P s
  | .emit _ _ next, s => ∀ b : Bool, Script.returnsIn P (next b) s
  | .eff f next, s => Script.returnsIn P (next s) (f s)

/-- The worker's generator will return, or has returned, in a program state that
satisfies `P`. -/
def Worker.returnsIn {σ T : Type} (P : σ → Prop) (w : Worker σ T) (s : σ) : Prop :=
  match w with
  | .running t => t.returnsIn P s
  | .sending _ next => (next true).returnsIn P s
  | .closed => P s

/-- The values that have left the worker's callback or are offered by it and are
not yet in `result`: the one held by the consumer and the one in a blocked
send. -/
def ChanState.inFlight {σ T : Type} (x : ChanState σ T) : Nat :=
  x.receiver.held.length + (if x.worker.isSending then 1 else 0)

/-! ## Generators and consumers of the test suite (generator_test.go:11-74) -/

/-- The package variable `generatorClosed` of the test suite
(generator_test.go:11), and next to it a count of the runs of the deferred
function of the test generators; the count is an observation, not a variable of
the program. -/
structure TestWorld where
  generatorClosed : Bool
  cleanups : Nat
  deriving DecidableEq, Repr

/-- The assignment `generatorClosed = false` at the start of a test generator; `α`
is the rest of the program state. -/
def openFlag {α : Type} (w : TestWorld × α) : TestWorld × α :=
  ({ w.1 with generatorClosed := false }, w.2)

/-- The deferred function `func() { generatorClosed = true }` of a test
generator. -/
def closeFlag {α : Type} (w : TestWorld × α) : TestWorld × α :=
  ({ generatorClosed := true, cleanups := w.1.cleanups + 1 }, w.2)

/-- The return of a test generator: the deferred function runs, then the
generator has returned. -/
def deferredClose {α T : Type} : Script (TestWorld × α) T :=
  .eff closeFlag (fun _ => .done)

/-- The chain `!yield(..) || !yield(..) || !yield(..)` of the test generators:
the next yield is evaluated only when the previous one returned true; either
way the function returns and the deferred function runs. -/
def yieldChain {α T : Type} : List (T × Error) → Script (TestWorld × α) T
  | [] => deferredClose
  | it :: rest => .emit it.1 it.2 (fun b => if b then yieldChain rest else deferredClose)

/-- The body of the test generators (generator_test.go:13-34, 196-205):
`generatorClosed = false`, the `defer`, the chain of yields over the items, and
on every way out the deferred `generatorClosed = true`. -/
def flaggedBody {α T : Type} (items : List (T × Error)) : Script (TestWorld × α) T :=
  .eff openFlag (fun _ => yieldChain items)

/-- The generator `genTest` (generator_test.go:13-22); `β` holds the variables of
the callback. -/
def genTest {α β : Type} : Generator ((TestWorld × α) × β) String :=
  (flaggedBody genTestItems).run

/-- The generator `genTest2E` (generator_test.go:23-34). -/
def genTest2E {α β : Type} : Generator ((TestWorld × α) × β) String :=
  (flaggedBody genTest2EItems).run

/-- The pull-side callback of `seqToSlice` (generator_test.go:57-64) on its
variables `(result, ind)`: `result = append(result, v)`, `ind += 1`, false when
`ind == limit`. -/
def seqToSliceYield {σ T : Type} (limit : Int) : Pull (σ × (List T × Int)) T :=
  fun v st => (decide (st.2.2 + 1 ≠ limit), (st.1, (st.2.1 ++ [v], st.2.2 + 1)))

/-- The function `seqToSlice` (generator_test.go:54-74): `result` and the program
state after the call. -/
def seqToSlice {σ T : Type} (g : Generator (σ × (List T × Int)) T) (limit : Int) (s : σ) :
    List T × σ :=
  let fin := Seq g (seqToSliceYield limit) (s, ([], 0))
  (fin.2.1, fin.1)

/-- The cancellation policy of `chanToSlice` (generator_test.go:46-49): `cancel()`
right after the `limit`-th value has been appended. -/
def signalAt {T : Type} (limit : Int) : List T → Bool :=
  fun result => (result.length : Int) == limit

/-- The function `chanToSlice` (generator_test.go:36-52) under a given
interleaving: the token is signalled before the call when `limit` is 0. -/
def chanToSlice {σ T : Type} (t : Script σ T) (limit : Int) (moves : List Move) (s : σ) :
    ChanState σ T :=
  (Chan t (limit == 0) s).exec (signalAt limit) moves

/-- An interleaving of `chanToSlice(genTest, 2)` in which the worker polls the
token for the third value before the consumer, holding the second value, has run
its loop body and called `cancel()`. -/
def pollBeforeCancel : List Move :=
  [.work, .work, .handoff, .work, .consume, .handoff, .work, .consume, .handoff, .consume,
   .work, .work, .consume]

/-- An interleaving of `chanToSlice(genTest, 2)` in which the consumer runs its
loop body on the second value, calling `cancel()`, before the worker polls the
token for the third value. -/
def cancelBeforePoll : List Move :=
  [.work, .work, .handoff, .work, .consume, .handoff, .consume, .work, .work, .work,
   .consume]

/-- A multi-mapper that returns no output and an error on the value 2, and `t`
copies of the decimal of `t` otherwise. -/
def skipTwo : Nat → Error → List String × Error :=
  fun t err => if t = 2 then ([], some "skipped") else (List.replicate t (toString t), err)

/-! ## Mappers for the algebraic laws -/

/-- The identity mapper `func(v T, err error) (T, error) { return v, err }`. -/
def idMapper {σ T : Type} : Mapper σ T T :=
  fun v err s => ((v, err), s)

/-- The mapper `h after f`: `func(v, err) { return h(f(v, err)) }`. -/
def afterMapper {σ A B C : Type} (h : Mapper σ B C) (f : Mapper σ A B) : Mapper σ A C :=
  fun v err s =>
    let r := f v err s
    h r.1.1 r.1.2 r.2

/-- The multi-mapper that returns the one-element sequence of the value of `f`
and the error of `f`. -/
def singletonMapper {σ IN OUT : Type} (f : Mapper σ IN OUT) : Mapper σ IN (List OUT) :=
  fun v err s =>
    let r := f v err s
    (([r.1.1], r.1.2), r.2)

/-! ## Collect over a list generator -/

theorem fromItems_collect_aux {σ T : Type} (L : List (T × Error)) (s : σ) (acc : List T) :
    fromItems L collectYield (s, acc)
      = (s, acc ++ valuesBeforeError L) := by
  induction L generalizing acc with
  | nil => simp [fromItems, valuesBeforeError]
  | cons it rest ih =>
    obtain ⟨v, e⟩ := it
    cases e with
    | none =>
      simp only [fromItems, collectYield, ne_eq, not_true_eq_false, if_false, if_true]
      rw [ih]
      simp [valuesBeforeError, List.takeWhile]
    | some msg =>
      simp [fromItems, collectYield, valuesBeforeError, List.takeWhile]

theorem collect_fromItems {σ T : Type} (L : List (T × Error)) (s : σ) :
    Collect (fromItems L) s = (valuesBeforeError L, s) := by
  simp only [Collect, fromItems_collect_aux, List.nil_append]

theorem valuesBeforeError_of_no_error {T : Type} (L : List (T × Error))
    (hL : ∀ it ∈ L, it.2 = none) : valuesBeforeError L = L.map Prod.fst := by
  induction L with
  | nil => rfl
  | cons it rest ih =>
    have h1 : it.2 = none := hL it (List.mem_cons_self _ _)
    have h2 := ih (fun x hx => hL x (List.mem_cons_of_mem _ hx))
    simp only [valuesBeforeError, List.takeWhile, h1, Option.isNone_none, List.map_cons] at h2 ⊢
    rw [h2]

theorem valuesBeforeError_error {T : Type} (pre post : List (T × Error)) (v : T)
    (msg : String) (hpre : ∀ it ∈ pre, it.2 = none) :
    valuesBeforeError (pre ++ (v, some msg) :: post) = pre.map Prod.fst := by
  induction pre with
  | nil => simp [valuesBeforeError, List.takeWhile]
  | cons it rest ih =>
    have h1 : it.2 = none := hpre it (List.mem_cons_self _ _)
    have h2 := ih (fun x hx => hpre x (List.mem_cons_of_mem _ hx))
    simp only [valuesBeforeError, List.cons_append, List.takeWhile, h1, Option.isNone_none,
      List.map_cons] at h2 ⊢
    exact congrArg _ h2

/-- C1: `Collect` over the list generator of `L` returns exactly the values of the
items of `L` before the first item with a non-nil error, in order; all the values
when no item carries an error; nothing when the first item carries one.  The
program state is left as it was. -/
theorem C1_collect_fromItems {σ T : Type} (L : List (T × Error)) (s : σ) :
    Collect (fromItems L) s = (valuesBeforeError L, s)
    ∧ (∀ vs : List T, (Collect (fromItems (vs.map (fun v => (v, none)))) s).1 = vs)
    ∧ (∀ (v : T) (msg : String) (rest : List (T × Error)),
        (Collect (fromItems ((v, some msg) :: rest)) s).1 = []) := by
  refine ⟨collect_fromItems L s, ?_, ?_⟩
  · intro vs
    rw [collect_fromItems, valuesBeforeError_of_no_error]
    · simp [Function.comp_def]
    · intro it hit
      simp only [List.mem_map] at hit
      obtain ⟨v, _, rfl⟩ := hit
      rfl
  · intro v msg rest
    rw [collect_fromItems]
    simp [valuesBeforeError, List.takeWhile]

/-! ## Map and MMap over a list generator -/

theorem map_fromItems {σ IN OUT : Type} (f : IN → Error → OUT × Error)
    (L : List (IN × Error)) (yield : Yield σ OUT) (s : σ) :
    Map (fromItems L) (pureMapper f) yield s = fromItems (mapItems f L) yield s := by
  induction L generalizing s with
  | nil => rfl
  | cons it rest ih =>
    simp only [Map, mapItems, List.map_cons, fromItems, mapYield, pureMapper] at ih ⊢
    split
    · exact ih _
    · rfl

theorem fromItems_expansion_append {σ OUT : Type} (yield : Yield σ OUT) (e : Error)
    (outs : List OUT) (B : List (OUT × Error)) (s : σ) :
    fromItems (outs.map (fun out => (out, e)) ++ B) yield s
      = if (rangeYield yield e outs s).1 then fromItems B yield (rangeYield yield e outs s).2
        else (rangeYield yield e outs s).2 := by
  induction outs generalizing s with
  | nil => simp [rangeYield]
  | cons o rest ih =>
    simp only [List.map_cons, List.cons_append, fromItems, rangeYield]
    by_cases h : (yield o e s).1 = true
    · simp only [h, if_true]
      exact ih _
    · simp [h]

theorem mmap_fromItems {σ IN OUT : Type} (f : IN → Error → List OUT × Error)
    (L : List (IN × Error)) (yield : Yield σ OUT) (s : σ) :
    MMap (fromItems L) (pureMapper f) yield s = fromItems (expandItems f L) yield s := by
  induction L generalizing s with
  | nil => rfl
  | cons it rest ih =>
    simp only [MMap, expandItems, List.map_cons, List.flatten_cons, fromItems, mmapYield,
      pureMapper, expandItem] at ih ⊢
    rw [fromItems_expansion_append]
    split
    · exact ih _
    · rfl

/-- C2: over a list generator without errors and a transform `f` that returns a
nil error on a nil error, `Map(g, f).Collect()` is `f` applied to each element of
`g.Collect()`, and has the same length. -/
theorem C2_map_collect_elementwise {σ IN OUT : Type} (L : List (IN × Error))
    (f : IN → Error → OUT × Error) (s : σ)
    (hL : ∀ it ∈ L, it.2 = none) (hf : ∀ v, (f v none).2 = none) :
    (Collect (Map (fromItems L) (pureMapper f)) s).1
        = (Collect (fromItems L) s).1.map (fun v => (f v none).1)
    ∧ (Collect (Map (fromItems L) (pureMapper f)) s).1.length
        = (Collect (fromItems L) s).1.length := by
  have h1 : Collect (Map (fromItems L) (pureMapper f)) s
      = Collect (fromItems (mapItems f L)) s := by
    simp only [Collect, map_fromItems]
  have h2 : ∀ it ∈ mapItems f L, it.2 = none := by
    intro it hit
    simp only [mapItems, List.mem_map] at hit
    obtain ⟨x, hx, rfl⟩ := hit
    rw [hL x hx]
    exact hf _
  have h3 : (Collect (Map (fromItems L) (pureMapper f)) s).1
      = (Collect (fromItems L) s).1.map (fun v => (f v none).1) := by
    rw [h1, collect_fromItems, collect_fromItems, valuesBeforeError_of_no_error _ h2,
      valuesBeforeError_of_no_error _ hL]
    simp only [mapItems, List.map_map]
    apply List.map_congr_left
    intro it hit
    simp only [Function.comp_apply]
    rw [hL it hit]
  exact ⟨h3, by rw [h3, List.length_map]⟩

/-- Witness of C2 on the generator and mapper of `TestMap`
(generator_test.go:196-224). -/
theorem C2_map_collect_elementwise_witness :
    (Collect (Map (fromItems [((1 : Nat), none), (2, none), (3, none)])
        (pureMapper (fun t err => (toString t, err)))) ()).1
      = (Collect (fromItems [((1 : Nat), none), (2, none), (3, none)]) ()).1.map
          (fun v => toString v) :=
  (C2_map_collect_elementwise [((1 : Nat), none), (2, none), (3, none)]
    (fun t err => (toString t, err)) () (by decide) (fun _ => rfl)).1

theorem expandItems_no_error {IN OUT : Type} (L : List (IN × Error))
    (f : IN → Error → List OUT × Error)
    (hL : ∀ it ∈ L, it.2 = none) (hf : ∀ it ∈ L, (f it.1 none).2 = none) :
    (∀ it ∈ expandItems f L, it.2 = none)
    ∧ (expandItems f L).map Prod.fst = (L.map (fun it => (f it.1 none).1)).flatten := by
  induction L with
  | nil => exact ⟨fun _ h => by simp [expandItems] at h, rfl⟩
  | cons x rest ih =>
    have hx : x.2 = none := hL x (List.mem_cons_self _ _)
    have hfx : (f x.1 none).2 = none := hf x (List.mem_cons_self _ _)
    obtain ⟨ih1, ih2⟩ := ih (fun y hy => hL y (List.mem_cons_of_mem _ hy))
      (fun y hy => hf y (List.mem_cons_of_mem _ hy))
    simp only [expandItems, List.map_cons, List.flatten_cons, List.mem_append, List.map_append]
      at ih1 ih2 ⊢
    constructor
    · intro it hit
      rcases hit with h | h
      · simp only [expandItem, hx, hfx, List.mem_map] at h
        obtain ⟨o, _, rfl⟩ := h
        rfl
      · exact ih1 it h
    · rw [ih2]
      simp [expandItem, hx, Function.comp_def]

/-- C3: over a list generator without errors and a one-to-many transform `f` that
returns a nil error on every input, `MMap(g, f).Collect()` is the concatenation
`f(x1) ++ ... ++ f(xN)`; its length is the sum of the lengths of the `f(xi)`; and
for every `i` the outputs of the first `i` inputs come before the outputs of the
later inputs. -/
theorem C3_mmap_collect_concat {σ IN OUT : Type} (L : List (IN × Error))
    (f : IN → Error → List OUT × Error) (s : σ)
    (hL : ∀ it ∈ L, it.2 = none) (hf : ∀ it ∈ L, (f it.1 none).2 = none) :
    (Collect (MMap (fromItems L) (pureMapper f)) s).1
        = (L.map (fun it => (f it.1 none).1)).flatten
    ∧ (Collect (MMap (fromItems L) (pureMapper f)) s).1.length
        = (L.map (fun it => (f it.1 none).1.length)).sum
    ∧ ∀ i : Nat, (Collect (MMap (fromItems L) (pureMapper f)) s).1
        = ((L.take i).map (fun it => (f it.1 none).1)).flatten
          ++ ((L.drop i).map (fun it => (f it.1 none).1)).flatten := by
  have h1 : Collect (MMap (fromItems L) (pureMapper f)) s
      = Collect (fromItems (expandItems f L)) s := by
    simp only [Collect, mmap_fromItems]
  obtain ⟨h2, h3⟩ := expandItems_no_error L f hL hf
  have h4 : (Collect (MMap (fromItems L) (pureMapper f)) s).1
      = (L.map (fun it => (f it.1 none).1)).flatten := by
    rw [h1, collect_fromItems, valuesBeforeError_of_no_error _ h2, h3]
  refine ⟨h4, ?_, ?_⟩
  · rw [h4, List.length_flatten, List.map_map]
    rfl
  · intro i
    rw [h4, ← List.flatten_append, ← List.map_append, List.take_append_drop]

/-- Witness of C3 on the generator and mapper of `TestMMap`
(generator_test.go:251-267). -/
theorem C3_mmap_collect_concat_witness :
    (Collect (MMap (fromItems [((1 : Nat), none), (2, none), (3, none)])
        (pureMapper (fun t err => (List.replicate t (toString t), err)))) ()).1
      = ([((1 : Nat), (none : Error)), (2, none), (3, none)].map
          (fun it => List.replicate it.1 (toString it.1))).flatten :=
  (C3_mmap_collect_concat [((1 : Nat), none), (2, none), (3, none)]
    (fun t err => (List.replicate t (toString t), err)) () (by decide) (by decide)).1

/-! ## Recorded invocations over a list generator -/

theorem fromItems_traced {σ T : Type} (X : List (T × Error)) (y : Yield σ T) (s : σ)
    (log : List (Call T)) :
    fromItems X (traced y) (s, log) = (fromItems X y s, log ++ feed y X s) := by
  induction X generalizing s log with
  | nil => simp [fromItems, feed]
  | cons it rest ih =>
    simp only [fromItems, traced, feed]
    by_cases h : (y it.1 it.2 s).1 = true
    · simp only [h, if_true]
      rw [ih]
      simp
    · simp [h]

theorem calls_fromItems {σ T : Type} (X : List (T × Error)) (y : Yield σ T) (s : σ) :
    calls (fromItems X) y s = feed y X s := by
  simp [calls, fromItems_traced]

theorem feed_of_first_false {σ T : Type} (X : List (T × Error)) (y : Yield σ T) (s : σ)
    (k : Nat) (hk : (replies y X s).take k = List.replicate (k - 1) true ++ [false]) :
    (feed y X s).map Call.item = X.take k
    ∧ (feed y X s).map Call.ret = List.replicate (k - 1) true ++ [false] := by
  induction X generalizing s k with
  | nil =>
    simp [replies] at hk
  | cons it rest ih =>
    cases k with
    | zero => simp at hk
    | succ n =>
      simp only [replies, List.take_succ_cons, Nat.add_sub_cancel] at hk
      cases n with
      | zero =>
        simp only [List.take_zero, List.replicate_zero, List.nil_append, List.cons.injEq,
          and_true] at hk
        simp [feed, hk, Call.item]
      | succ m =>
        simp only [List.replicate_succ, List.cons_append, List.cons.injEq] at hk
        obtain ⟨h1, h2⟩ := hk
        have := ih (y it.1 it.2 s).2 (m + 1) (by simpa using h2)
        simp only [Nat.add_sub_cancel] at this
        simp [feed, h1, Call.item, this.1, this.2, List.replicate_succ] at this ⊢

theorem replies_length {σ T : Type} (X : List (T × Error)) (y : Yield σ T) (s : σ) :
    (replies y X s).length = X.length := by
  induction X generalizing s with
  | nil => rfl
  | cons it rest ih => simp [replies, ih]

theorem replies_append {σ T : Type} (A B : List (T × Error)) (y : Yield σ T) (s : σ) :
    replies y (A ++ B) s = replies y A s ++ replies y B (afterAll y A s) := by
  induction A generalizing s with
  | nil => rfl
  | cons it rest ih => simp [replies, afterAll, ih]

theorem rangeYield_of_all_true {σ OUT : Type} (y : Yield σ OUT) (e : Error) (outs : List OUT)
    (s : σ)
    (h : replies y (outs.map (fun out => (out, e))) s = List.replicate outs.length true) :
    rangeYield y e outs s = (true, afterAll y (outs.map (fun out => (out, e))) s) := by
  induction outs generalizing s with
  | nil => rfl
  | cons o rest ih =>
    simp only [List.map_cons, replies, List.length_cons, List.replicate_succ,
      List.cons.injEq] at h
    simp only [rangeYield, h.1, if_true, List.map_cons, afterAll]
    exact ih _ h.2

theorem rangeYield_of_first_false {σ OUT : Type} (y : Yield σ OUT) (e : Error)
    (outs : List OUT) (s : σ) (k : Nat)
    (h : (replies y (outs.map (fun out => (out, e))) s).take k
      = List.replicate (k - 1) true ++ [false]) :
    (rangeYield y e outs s).1 = false := by
  induction outs generalizing s k with
  | nil => simp [replies] at h
  | cons o rest ih =>
    cases k with
    | zero => simp at h
    | succ n =>
      simp only [List.map_cons, replies, List.take_succ_cons, Nat.add_sub_cancel] at h
      cases n with
      | zero =>
        simp only [List.take_zero, List.replicate_zero, List.nil_append, List.cons.injEq,
          and_true] at h
        simp [rangeYield, h]
      | succ m =>
        simp only [List.replicate_succ, List.cons_append, List.cons.injEq] at h
        simp only [rangeYield, h.1, if_true]
        exact ih _ (m + 1) (by simpa using h.2)

theorem expandItem_length {IN OUT : Type} (f : IN → Error → List OUT × Error)
    (it : IN × Error) : (expandItem f it).length = (f it.1 it.2).1.length := by
  simp [expandItem]

theorem expandItems_cons {IN OUT : Type} (f : IN → Error → List OUT × Error)
    (it : IN × Error) (rest : List (IN × Error)) :
    expandItems f (it :: rest) = expandItem f it ++ expandItems f rest := by
  simp [expandItems]

theorem feed_mmapYield_of_first_false {σ IN OUT : Type} (L : List (IN × Error))
    (f : IN → Error → List OUT × Error) (y : Yield σ OUT) (s : σ) (k : Nat)
    (hk : (replies y (expandItems f L) s).take k = List.replicate (k - 1) true ++ [false]) :
    ∃ j : Nat,
      (feed (mmapYield (pureMapper f) y) L s).map Call.item = L.take (j + 1)
      ∧ (feed (mmapYield (pureMapper f) y) L s).map Call.ret
          = List.replicate j true ++ [false]
      ∧ (expandItems f (L.take j)).length < k
      ∧ k ≤ (expandItems f (L.take (j + 1))).length := by
  induction L generalizing s k with
  | nil => simp [expandItems, replies] at hk
  | cons it rest ih =>
    have hk1 : 1 ≤ k := by
      cases k with
      | zero => simp at hk
      | succ n => omega
    rw [expandItems_cons, replies_append] at hk
    have hlen : (replies y (expandItem f it) s).length = (f it.1 it.2).1.length := by
      rw [replies_length, expandItem_length]
    by_cases hle : k ≤ (f it.1 it.2).1.length
    · rw [List.take_append_of_le_length (by omega)] at hk
      have hfalse := rangeYield_of_first_false y (f it.1 it.2).2 (f it.1 it.2).1 s k hk
      refine ⟨0, ?_, ?_, ?_, ?_⟩
      · simp [feed, mmapYield, pureMapper, hfalse, Call.item]
      · simp [feed, mmapYield, pureMapper, hfalse]
      · simp [expandItems]; omega
      · simp [expandItems, expandItem_length]; omega
    · have hlt : (f it.1 it.2).1.length < k := by omega
      rw [List.take_append_eq_append_take, List.take_of_length_le (by omega), hlen] at hk
      have hsplit : List.replicate (k - 1) true ++ [false]
          = List.replicate (f it.1 it.2).1.length true
            ++ (List.replicate (k - (f it.1 it.2).1.length - 1) true ++ [false]) := by
        rw [← List.append_assoc, List.append_replicate_replicate]
        congr 2
        omega
      rw [hsplit] at hk
      have hinj := List.append_inj hk (by rw [hlen, List.length_replicate])
      obtain ⟨hA, hB⟩ := hinj
      have htrue := rangeYield_of_all_true y (f it.1 it.2).2 (f it.1 it.2).1 s hA
      obtain ⟨j, h1, h2, h3, h4⟩ := ih _ _ hB
      refine ⟨j + 1, ?_, ?_, ?_, ?_⟩
      · simp only [feed, mmapYield, pureMapper, htrue, if_true, List.map_cons, List.take_succ_cons,
          Call.item, List.cons.injEq, true_and]
        simpa [mmapYield, pureMapper, expandItem] using h1
      · simp only [feed, mmapYield, pureMapper, htrue, if_true, List.map_cons,
          List.replicate_succ, List.cons_append, List.cons.injEq, true_and]
        simpa [mmapYield, pureMapper, expandItem] using h2
      · simp only [List.take_succ_cons, expandItems_cons, List.length_append, expandItem_length]
        omega
      · simp only [List.take_succ_cons, expandItems_cons, List.length_append, expandItem_length]
        omega

theorem rangeYield_liftYield {σ α OUT : Type} (y : Yield σ OUT) (e : Error) (outs : List OUT)
    (s : σ) (a : α) :
    rangeYield (liftYield y) e outs (s, a)
      = ((rangeYield y e outs s).1, ((rangeYield y e outs s).2, a)) := by
  induction outs generalizing s with
  | nil => rfl
  | cons o rest ih =>
    simp only [rangeYield, liftYield]
    by_cases h : (y o e s).1 = true
    · simp only [h, if_true]
      exact ih _
    · simp [h]

theorem fromItems_recordingMapper {σ IN OUT : Type} (L : List (IN × Error))
    (f : IN → Error → List OUT × Error) (y : Yield σ OUT) (s : σ) (log : List (IN × Error)) :
    fromItems L (mmapYield (recordingMapper f) (liftYield y)) (s, log)
      = (fromItems L (mmapYield (pureMapper f) y) s,
          log ++ (feed (mmapYield (pureMapper f) y) L s).map Call.item) := by
  induction L generalizing s log with
  | nil => simp [fromItems, feed]
  | cons it rest ih =>
    simp only [fromItems, feed, mmapYield, recordingMapper, pureMapper, rangeYield_liftYield]
    by_cases h : (rangeYield y (f it.1 it.2).2 (f it.1 it.2).1 s).1 = true
    · simp only [h, if_true]
      have := ih (rangeYield y (f it.1 it.2).2 (f it.1 it.2).1 s).2 (log ++ [(it.1, it.2)])
      simp only [mmapYield, recordingMapper, pureMapper] at this
      rw [this]
      simp [Call.item, mmapYield, pureMapper]
    · simp [h, Call.item]

/-- C4: when the outer callback returns false for the first time on its `k`-th
invocation, `MMap` over a list generator invokes it exactly `k` times, on the
first `k` elements of the concatenated expansions; the inner callback returns
true for the `j` inputs expanded in full and false for the next one, the one
whose expansion holds the `k`-th output; the mapper is applied to those `j + 1`
inputs and to no later one.  With `t` copies of the decimal of `t` over 1, 2, 3
and a callback stopping on its 4th invocation the outputs are "1","2","2","3". -/
theorem C4_mmap_stops_at_first_false {σ IN OUT : Type} (L : List (IN × Error))
    (f : IN → Error → List OUT × Error) (y : Yield σ OUT) (s : σ) (k : Nat)
    (hk : (replies y (expandItems f L) s).take k = List.replicate (k - 1) true ++ [false]) :
    (calls (MMap (fromItems L) (pureMapper f)) y s).map Call.item = (expandItems f L).take k
    ∧ (calls (MMap (fromItems L) (pureMapper f)) y s).map Call.ret
        = List.replicate (k - 1) true ++ [false]
    ∧ (calls (MMap (fromItems L) (pureMapper f)) y s).length = k
    ∧ (∃ j : Nat,
        (calls (fromItems L) (mmapYield (pureMapper f) y) s).map Call.item = L.take (j + 1)
        ∧ (calls (fromItems L) (mmapYield (pureMapper f) y) s).map Call.ret
            = List.replicate j true ++ [false]
        ∧ (expandItems f (L.take j)).length < k
        ∧ k ≤ (expandItems f (L.take (j + 1))).length
        ∧ (MMap (fromItems L) (recordingMapper f) (liftYield y) (s, [])).2 = L.take (j + 1))
    ∧ (calls (MMap (fromItems [((1 : Nat), none), (2, none), (3, none)])
          (pureMapper repeatDecimal)) (stopAt 4) 0).map Call.v = ["1", "2", "2", "3"] := by
  have hk1 : 1 ≤ k := by
    cases k with
    | zero => simp at hk
    | succ n => omega
  have houter : calls (MMap (fromItems L) (pureMapper f)) y s = feed y (expandItems f L) s := by
    simp only [calls, mmap_fromItems, fromItems_traced]
    simp
  obtain ⟨h1, h2⟩ := feed_of_first_false (expandItems f L) y s k hk
  obtain ⟨j, h3, h4, h5, h6⟩ := feed_mmapYield_of_first_false L f y s k hk
  refine ⟨by rw [houter]; exact h1, by rw [houter]; exact h2, ?_, ⟨j, ?_, ?_, h5, h6, ?_⟩, ?_⟩
  · have := congrArg List.length h2
    rw [houter]
    simp only [List.length_map, List.length_append, List.length_replicate,
      List.length_singleton] at this
    omega
  · rw [calls_fromItems]; exact h3
  · rw [calls_fromItems]; exact h4
  · simp only [MMap, fromItems_recordingMapper, List.nil_append]
    exact h3
  · decide

/-- Witness of C4 on the second case of `TestMMap` (generator_test.go:272-295):
inputs 1, 2, 3 and a consumer that stops on its 4th invocation. -/
theorem C4_mmap_stops_at_first_false_witness :
    (replies (stopAt 4) (expandItems repeatDecimal [((1 : Nat), none), (2, none), (3, none)])
        0).take 4 = List.replicate (4 - 1) true ++ [false]
    ∧ (calls (MMap (fromItems [((1 : Nat), none), (2, none), (3, none)])
          (pureMapper repeatDecimal)) (stopAt 4) 0).map Call.item
        = (expandItems repeatDecimal [((1 : Nat), none), (2, none), (3, none)]).take 4
    ∧ (calls (MMap (fromItems [((1 : Nat), none), (2, none), (3, none)])
          (pureMapper repeatDecimal)) (stopAt 4) 0).length = 4 :=
  ⟨by decide,
   (C4_mmap_stops_at_first_false [((1 : Nat), none), (2, none), (3, none)] repeatDecimal
      (stopAt 4) 0 4 (by decide)).1,
   (C4_mmap_stops_at_first_false [((1 : Nat), none), (2, none), (3, none)] repeatDecimal
      (stopAt 4) 0 4 (by decide)).2.2.1⟩

/-! ## Recorded invocations over an arbitrary producer body -/

theorem script_run_traced {σ T : Type} (t : Script σ T) (y : Yield σ T) (s : σ)
    (log : List (Call T)) :
    t.run (traced y) (s, log) = (t.exec y s, log ++ t.feed y s) := by
  induction t generalizing s log with
  | done => simp [Script.run, Script.exec, Script.feed]
  | emit v err next ih =>
    simp only [Script.run, Script.exec, Script.feed, traced]
    rw [ih]
    simp
  | eff step next ih =>
    simp only [Script.run, Script.exec, Script.feed]
    exact ih _ _ _

theorem calls_script {σ T : Type} (t : Script σ T) (y : Yield σ T) (s : σ) :
    calls t.run y s = t.feed y s := by
  simp [calls, script_run_traced]

theorem script_map_traced {σ IN OUT : Type} (t : Script σ IN) (f : IN → Error → OUT × Error)
    (y : Yield σ OUT) (s : σ) (log : List (Call OUT)) :
    t.run (mapYield (pureMapper f) (traced y)) (s, log)
      = (t.exec (mapYield (pureMapper f) y) s,
          log ++ (t.feed (mapYield (pureMapper f) y) s).map (Call.mapped f)) := by
  induction t generalizing s log with
  | done => simp [Script.run, Script.exec, Script.feed]
  | emit v err next ih =>
    simp only [Script.run, Script.exec, Script.feed, traced, mapYield, pureMapper] at ih ⊢
    rw [ih]
    simp [Call.mapped]
  | eff step next ih =>
    simp only [Script.run, Script.exec, Script.feed]
    exact ih _ _ _

theorem script_map_traced_ret {σ IN OUT : Type} (t : Script σ IN) (m : Mapper σ IN OUT)
    (y : Yield σ OUT) (s : σ) (log : List (Call OUT)) :
    ∃ extra : List (Call OUT),
      t.run (mapYield (liftMapper m) (traced y)) (s, log)
        = (t.exec (mapYield m y) s, log ++ extra)
      ∧ extra.map Call.ret = (t.feed (mapYield m y) s).map Call.ret := by
  induction t generalizing s log with
  | done => exact ⟨[], by simp [Script.run, Script.exec, Script.feed]⟩
  | eff step next ih =>
    simp only [Script.run, Script.exec, Script.feed]
    exact ih _ _ _
  | emit v err next ih =>
    simp only [Script.run, Script.exec, Script.feed, traced, mapYield, liftMapper] at ih ⊢
    obtain ⟨extra, h1, h2⟩ := ih
      (y (m v err s).1.1 (m v err s).1.2 (m v err s).2).1
      (y (m v err s).1.1 (m v err s).1.2 (m v err s).2).2
      (log ++ [⟨(m v err s).1.1, (m v err s).1.2,
        (y (m v err s).1.1 (m v err s).1.2 (m v err s).2).1⟩])
    refine ⟨⟨(m v err s).1.1, (m v err s).1.2,
        (y (m v err s).1.1 (m v err s).1.2 (m v err s).2).1⟩ :: extra, ?_, ?_⟩
    · rw [h1]
      simp
    · simp [h2]

/-- C5: `Map(g, f)` run with `y` is `g` run with the inner callback; on each
emission the inner callback applies the mapper, invokes `y` once on the mapper's
results and returns the boolean `y` returned.  Over any producer body the
booleans returned to it are those the outer callback returned, one for one, so
there are as many outer invocations as inner emissions; for an effect-free
mapper the outer invocations are the inner emissions mapped one by one. -/
theorem C5_map_relays_one_to_one {σ IN OUT : Type} :
    (∀ (g : Generator σ IN) (m : Mapper σ IN OUT) (y : Yield σ OUT) (s : σ),
      Map g m y s = g (mapYield m y) s)
    ∧ (∀ (m : Mapper σ IN OUT) (y : Yield σ OUT) (v : IN) (err : Error) (s : σ)
        (log : List (Call OUT)),
      mapYield (liftMapper m) (traced y) v err (s, log)
        = ((y (m v err s).1.1 (m v err s).1.2 (m v err s).2).1,
            ((y (m v err s).1.1 (m v err s).1.2 (m v err s).2).2,
              log ++ [⟨(m v err s).1.1, (m v err s).1.2,
                (y (m v err s).1.1 (m v err s).1.2 (m v err s).2).1⟩])))
    ∧ (∀ (t : Script σ IN) (m : Mapper σ IN OUT) (y : Yield σ OUT) (s : σ),
      (calls (Map t.run (liftMapper m)) y s).map Call.ret
          = (calls t.run (mapYield m y) s).map Call.ret
      ∧ (calls (Map t.run (liftMapper m)) y s).length
          = (calls t.run (mapYield m y) s).length)
    ∧ (∀ (t : Script σ IN) (f : IN → Error → OUT × Error) (y : Yield σ OUT) (s : σ),
      calls (Map t.run (pureMapper f)) y s
        = (calls t.run (mapYield (pureMapper f) y) s).map (Call.mapped f)) := by
  refine ⟨fun _ _ _ _ => rfl, fun _ _ _ _ _ _ => rfl, ?_, ?_⟩
  · intro t m y s
    obtain ⟨extra, h1, h2⟩ := script_map_traced_ret t m y s []
    have hret : (calls (Map t.run (liftMapper m)) y s).map Call.ret
        = (calls t.run (mapYield m y) s).map Call.ret := by
      rw [calls_script]
      simp only [calls, Map, h1, List.nil_append]
      exact h2
    refine ⟨hret, ?_⟩
    have := congrArg List.length hret
    simpa using this
  · intro t f y s
    rw [calls_script]
    simp [calls, Map, script_map_traced]

/-! ## Seq -/

theorem replies_seqYield {σ T : Type} (L : List (T × Error)) (p : Pull σ T) (s : σ)
    (hL : ∀ it ∈ L, it.2 = none) :
    replies (seqYield p) L s = pullReplies p (L.map Prod.fst) s := by
  induction L generalizing s with
  | nil => rfl
  | cons it rest ih =>
    have h1 : it.2 = none := hL it (List.mem_cons_self _ _)
    simp only [replies, seqYield, h1, ne_eq, not_true_eq_false, if_false, List.map_cons,
      pullReplies, List.cons.injEq, true_and]
    exact ih _ (fun x hx => hL x (List.mem_cons_of_mem _ hx))

theorem fromItems_seq_tracedPull {σ T : Type} (L : List (T × Error)) (p : Pull σ T) (s : σ)
    (log : List (T × Bool)) :
    fromItems L (seqYield (tracedPull p)) (s, log)
      = (fromItems L (seqYield p) s,
          log ++ ((feed (seqYield p) L s).filter (fun c => c.err.isNone)).map
            (fun c => (c.v, c.ret))) := by
  induction L generalizing s log with
  | nil => simp [fromItems, feed]
  | cons it rest ih =>
    obtain ⟨v, e⟩ := it
    cases e with
    | some msg => simp [fromItems, feed, seqYield]
    | none =>
      simp only [fromItems, feed, seqYield, tracedPull, ne_eq, not_true_eq_false, if_false]
      by_cases h : (p v s).1 = true
      · simp only [h, if_true]
        have := ih (p v s).2 (log ++ [(v, true)])
        simp only [seqYield] at this
        rw [this]
        simp [List.filter_cons]
      · simp [h, List.filter_cons]

theorem pulls_seq_fromItems {σ T : Type} (L : List (T × Error)) (p : Pull σ T) (s : σ) :
    pulls (Seq (fromItems L)) p s
      = ((feed (seqYield p) L s).filter (fun c => c.err.isNone)).map (fun c => (c.v, c.ret)) := by
  simp [pulls, Seq, fromItems_seq_tracedPull]

theorem feed_seqYield_always_true {σ T : Type} (L : List (T × Error)) (p : Pull σ T) (s : σ)
    (hp : ∀ v s0, (p v s0).1 = true) :
    (((feed (seqYield p) L s).filter (fun c => c.err.isNone)).map (fun c => (c.v, c.ret))).map
        Prod.fst = valuesBeforeError L := by
  induction L generalizing s with
  | nil => rfl
  | cons it rest ih =>
    obtain ⟨v, e⟩ := it
    cases e with
    | some msg => simp [feed, seqYield, valuesBeforeError, List.takeWhile, List.filter_cons]
    | none =>
      have := ih (p v s).2
      simp only [valuesBeforeError, List.map_map] at this
      simp [feed, seqYield, valuesBeforeError, List.takeWhile, List.filter_cons, hp, this]

/-- C6: over a list generator, the values `Seq` forwards to a pull-side callback
that always returns true are the values `Collect` returns: those of the items
before the first item with a non-nil error; when an item with an error follows
the error-free values `vs`, exactly `vs` is forwarded, neither that item's value
nor any later one. -/
theorem C6_seq_forwards_what_collect_returns {σ ρ T : Type} (L : List (T × Error))
    (p : Pull σ T) (s : σ) (s0 : ρ) (hp : ∀ v st, (p v st).1 = true) :
    (pulls (Seq (fromItems L)) p s).map Prod.fst = (Collect (fromItems L) s0).1
    ∧ (pulls (Seq (fromItems L)) p s).map Prod.fst = valuesBeforeError L
    ∧ (∀ (vs : List T) (v : T) (msg : String) (post : List (T × Error)),
        (pulls (Seq (fromItems (vs.map (fun a => (a, none)) ++ (v, some msg) :: post))) p s).map
          Prod.fst = vs) := by
  have h : ∀ K : List (T × Error),
      (pulls (Seq (fromItems K)) p s).map Prod.fst = valuesBeforeError K := by
    intro K
    rw [pulls_seq_fromItems]
    exact feed_seqYield_always_true K p s hp
  refine ⟨by rw [h, collect_fromItems], h L, ?_⟩
  intro vs v msg post
  rw [h, valuesBeforeError_error]
  · simp [Function.comp_def]
  · intro it hit
    simp only [List.mem_map] at hit
    obtain ⟨a, _, rfl⟩ := hit
    rfl

/-- Witness of C6 on `genTest2E` with a pull-side callback that appends every
value to a slice and returns true. -/
theorem C6_seq_forwards_what_collect_returns_witness :
    (pulls (Seq (fromItems genTest2EItems)) (fun v (st : List String) => (true, st ++ [v]))
        []).map Prod.fst
      = (Collect (fromItems genTest2EItems) ()).1 :=
  (C6_seq_forwards_what_collect_returns genTest2EItems
    (fun v (st : List String) => (true, st ++ [v])) [] () (fun _ _ => rfl)).1

/-- C7: over a list generator without errors, when the pull-side callback returns
false for the first time on its `k`-th invocation (so `1 ≤ k ≤ N`), the callback
`Seq` gives to the generator is invoked `k` times and returns false on the `k`-th,
and the pull-side callback is invoked `k` times, on the first `k` values in
order. -/
theorem C7_seq_relays_stop {σ T : Type} (L : List (T × Error)) (p : Pull σ T) (s : σ)
    (k : Nat) (hL : ∀ it ∈ L, it.2 = none)
    (hk : (pullReplies p (L.map Prod.fst) s).take k = List.replicate (k - 1) true ++ [false]) :
    (1 ≤ k ∧ k ≤ L.length)
    ∧ (calls (fromItems L) (seqYield p) s).map Call.ret = List.replicate (k - 1) true ++ [false]
    ∧ (calls (fromItems L) (seqYield p) s).length = k
    ∧ (pulls (Seq (fromItems L)) p s).map Prod.fst = (L.map Prod.fst).take k
    ∧ (pulls (Seq (fromItems L)) p s).map Prod.snd = List.replicate (k - 1) true ++ [false]
    ∧ (pulls (Seq (fromItems L)) p s).length = k := by
  have hk1 : 1 ≤ k := by
    cases k with
    | zero => simp at hk
    | succ n => omega
  have hkN : k ≤ L.length := by
    have := congrArg List.length hk
    simp only [List.length_take, pullReplies, List.length_append, List.length_replicate,
      List.length_singleton] at this
    have h2 : (pullReplies p (L.map Prod.fst) s).length = L.length := by
      rw [← replies_seqYield L p s hL, replies_length]
    omega
  rw [← replies_seqYield L p s hL] at hk
  obtain ⟨h1, h2⟩ := feed_of_first_false L (seqYield p) s k hk
  have hlen : (feed (seqYield p) L s).length = k := by
    have := congrArg List.length h2
    simp only [List.length_map, List.length_append, List.length_replicate,
      List.length_singleton] at this
    omega
  have hnone : ∀ c ∈ feed (seqYield p) L s, c.err.isNone = true := by
    intro c hc
    have hmem : c.item ∈ (feed (seqYield p) L s).map Call.item := List.mem_map_of_mem _ hc
    rw [h1] at hmem
    have := hL _ (List.mem_of_mem_take hmem)
    simp only [Call.item] at this
    simp [this]
  have hfilter : (feed (seqYield p) L s).filter (fun c => c.err.isNone) = feed (seqYield p) L s :=
    List.filter_eq_self.mpr hnone
  have hpulls : pulls (Seq (fromItems L)) p s
      = (feed (seqYield p) L s).map (fun c => (c.v, c.ret)) := by
    rw [pulls_seq_fromItems, hfilter]
  refine ⟨⟨hk1, hkN⟩, by rw [calls_fromItems]; exact h2, by rw [calls_fromItems]; exact hlen,
    ?_, ?_, ?_⟩
  · rw [hpulls, List.map_map, ← List.map_take, ← h1, List.map_map]
    rfl
  · rw [hpulls, List.map_map, ← h2]
    rfl
  · rw [hpulls, List.length_map, hlen]

/-- Witness of C7 on the case "seq two values" of `TestGenerator_Seq`
(generator_test.go:137-142): `genTest` and a pull-side callback stopping on its
second invocation. -/
theorem C7_seq_relays_stop_witness :
    (pullReplies (sliceUpTo 2) (genTestItems.map Prod.fst) (([] : List String), 0)).take 2
        = List.replicate (2 - 1) true ++ [false]
    ∧ (calls (fromItems genTestItems) (seqYield (sliceUpTo 2)) ([], 0)).map Call.ret
        = List.replicate (2 - 1) true ++ [false]
    ∧ (pulls (Seq (fromItems genTestItems)) (sliceUpTo 2) ([], 0)).map Prod.fst
        = (genTestItems.map Prod.fst).take 2 :=
  ⟨by decide,
   (C7_seq_relays_stop genTestItems (sliceUpTo 2) ([], 0) 2 (by decide) (by decide)).2.1,
   (C7_seq_relays_stop genTestItems (sliceUpTo 2) ([], 0) 2 (by decide) (by decide)).2.2.2.1⟩

/-! ## Fail-fast in Collect -/

theorem feed_collectYield_error {σ T : Type} (pre post : List (T × Error)) (v : T)
    (msg : String) (st : σ × List T) (hpre : ∀ it ∈ pre, it.2 = none) :
    feed collectYield (pre ++ (v, some msg) :: post) st
      = pre.map (fun it => ⟨it.1, none, true⟩) ++ [⟨v, some msg, false⟩] := by
  induction pre generalizing st with
  | nil => simp [feed, collectYield]
  | cons it rest ih =>
    have h1 : it.2 = none := hpre it (List.mem_cons_self _ _)
    simp only [List.cons_append, feed, collectYield, h1, ne_eq, not_true_eq_false, if_false,
      if_true, List.map_cons, List.cons.injEq, true_and]
    exact ih _ (fun x hx => hpre x (List.mem_cons_of_mem _ hx))

/-- C8: when the first item with a non-nil error is the `k`-th (after `k - 1`
items without error), `Collect` over the list generator invokes the callback
exactly `k` times: it returns true on the first `k - 1` items and false on the
`k`-th, whose value is not appended, and no later item reaches the callback. -/
theorem C8_collect_fail_fast {σ T : Type} (pre post : List (T × Error)) (v : T)
    (msg : String) (s : σ) (hpre : ∀ it ∈ pre, it.2 = none) :
    calls (fromItems (pre ++ (v, some msg) :: post)) collectYield (s, [])
        = pre.map (fun it => ⟨it.1, none, true⟩) ++ [⟨v, some msg, false⟩]
    ∧ (calls (fromItems (pre ++ (v, some msg) :: post)) collectYield (s, [])).length
        = pre.length + 1
    ∧ (Collect (fromItems (pre ++ (v, some msg) :: post)) s).1 = pre.map Prod.fst := by
  have h := feed_collectYield_error pre post v msg (s, ([] : List T)) hpre
  refine ⟨by rw [calls_fromItems]; exact h, ?_, ?_⟩
  · rw [calls_fromItems, h]
    simp
  · rw [collect_fromItems]
    exact valuesBeforeError_error pre post v msg hpre

/-- Witness of C8 on `genTest2E` (generator_test.go:23-34): the error comes with
the second of three values. -/
theorem C8_collect_fail_fast_witness :
    calls (fromItems ([("value1", none)] ++ ("value2", some "some error") :: [("value3", none)]))
        collectYield ((), [])
      = [("value1", (none : Error))].map (fun it => ⟨it.1, none, true⟩)
          ++ [⟨"value2", some "some error", false⟩]
    ∧ (Collect (fromItems
          ([("value1", none)] ++ ("value2", some "some error") :: [("value3", none)])) ()).1
        = [("value1", (none : Error))].map Prod.fst :=
  ⟨(C8_collect_fail_fast [("value1", none)] [("value3", none)] "value2" "some error" ()
      (by decide)).1,
   (C8_collect_fail_fast [("value1", none)] [("value3", none)] "value2" "some error" ()
      (by decide)).2.2⟩

/-! ## The expansion of one inner emission -/

theorem rangeYield_traced {σ OUT : Type} (y : Yield σ OUT) (e : Error) (outs : List OUT)
    (s : σ) (log : List (Call OUT)) :
    rangeYield (traced y) e outs (s, log)
      = ((rangeYield y e outs s).1,
          ((rangeYield y e outs s).2, log ++ feed y (outs.map (fun out => (out, e))) s)) := by
  induction outs generalizing s log with
  | nil => simp [rangeYield, feed]
  | cons o rest ih =>
    simp only [rangeYield, traced, List.map_cons, feed]
    by_cases h : (y o e s).1 = true
    · simp only [h, if_true]
      rw [ih]
      simp
    · simp [h]

theorem feed_item_take {σ T : Type} (X : List (T × Error)) (y : Yield σ T) (s : σ) :
    (feed y X s).map Call.item = X.take (feed y X s).length := by
  induction X generalizing s with
  | nil => rfl
  | cons it rest ih =>
    simp only [feed, List.map_cons, List.length_cons, List.take_succ_cons, Call.item,
      List.cons.injEq, true_and]
    by_cases h : (y it.1 it.2 s).1 = true
    · simp only [h, if_true]
      exact ih _
    · simp [h]

theorem script_mmap_traced {σ IN OUT : Type} (t : Script σ IN) (m : Mapper σ IN (List OUT))
    (y : Yield σ OUT) (s : σ) (log : List (Call OUT)) :
    ∃ chunks : List (List (Call OUT)),
      t.run (mmapYield (liftMapper m) (traced y)) (s, log)
        = (t.exec (mmapYield m y) s, log ++ chunks.flatten)
      ∧ List.Forall₂ (ExpandsTo m y) (t.feed (mmapYield m y) s) chunks := by
  induction t generalizing s log with
  | done => exact ⟨[], by simp [Script.run, Script.exec, Script.feed]⟩
  | eff step next ih =>
    simp only [Script.run, Script.exec, Script.feed]
    exact ih _ _ _
  | emit v err next ih =>
    simp only [Script.run, Script.exec, Script.feed, mmapYield, liftMapper, rangeYield_traced]
      at ih ⊢
    obtain ⟨chunks, h1, h2⟩ := ih
      (rangeYield y (m v err s).1.2 (m v err s).1.1 (m v err s).2).1
      (rangeYield y (m v err s).1.2 (m v err s).1.1 (m v err s).2).2
      (log ++ feed y ((m v err s).1.1.map (fun out => (out, (m v err s).1.2))) (m v err s).2)
    refine ⟨feed y ((m v err s).1.1.map (fun out => (out, (m v err s).1.2))) (m v err s).2
      :: chunks, ?_, ?_⟩
    · rw [h1]
      simp
    · exact List.Forall₂.cons ⟨s, rfl, rfl⟩ h2

theorem expandsTo_error_and_values {σ IN OUT : Type} (m : Mapper σ IN (List OUT))
    (y : Yield σ OUT) (c : Call IN) (chunk : List (Call OUT)) (h : ExpandsTo m y c chunk) :
    ∃ s0 : σ, (∀ d ∈ chunk, d.err = (m c.v c.err s0).1.2)
      ∧ chunk.map Call.v = (m c.v c.err s0).1.1.take chunk.length := by
  obtain ⟨s0, _, h2⟩ := h
  refine ⟨s0, ?_, ?_⟩
  · intro d hd
    have hmem : d.item ∈ chunk.map Call.item := List.mem_map_of_mem _ hd
    rw [h2, feed_item_take] at hmem
    have := List.mem_of_mem_take hmem
    simp only [List.mem_map, Call.item, Prod.mk.injEq] at this
    obtain ⟨o, _, _, h3⟩ := this
    exact h3.symm
  · have h3 := congrArg (List.map Prod.fst) (feed_item_take
      ((m c.v c.err s0).1.1.map (fun out => (out, (m c.v c.err s0).1.2))) y (m c.v c.err s0).2)
    rw [← h2] at h3
    simp only [List.map_map, List.map_take] at h3
    simpa [Function.comp_def, Call.item] using h3

/-- C9: every output that `MMap` delivers for an inner element goes to the outer
callback with the error the mapper returned for that element.  During one inner
invocation the outer invocations all carry the mapper's error and their values
are the first outputs of the mapper, in order; over any producer body the outer
invocations split into one such group per inner emission; and a mapper that
replaces the inner error has its own error delivered. -/
theorem C9_mmap_delivers_mapper_error {σ IN OUT : Type} :
    (∀ (m : Mapper σ IN (List OUT)) (y : Yield σ OUT) (v : IN) (err : Error) (s : σ)
        (log : List (Call OUT)),
      ∃ chunk : List (Call OUT),
        (mmapYield (liftMapper m) (traced y) v err (s, log)).2.2 = log ++ chunk
        ∧ (∀ d ∈ chunk, d.err = (m v err s).1.2)
        ∧ chunk.map Call.v = (m v err s).1.1.take chunk.length)
    ∧ (∀ (t : Script σ IN) (m : Mapper σ IN (List OUT)) (y : Yield σ OUT) (s : σ),
      ∃ chunks : List (List (Call OUT)),
        calls (MMap t.run (liftMapper m)) y s = chunks.flatten
        ∧ List.Forall₂
            (fun c chunk => ∃ s0 : σ, (∀ d ∈ chunk, d.err = (m c.v c.err s0).1.2)
              ∧ chunk.map Call.v = (m c.v c.err s0).1.1.take chunk.length)
            (calls t.run (mmapYield m y) s) chunks)
    ∧ (∀ (t : Script σ IN) (f : IN → Error → List OUT × Error) (y : Yield σ OUT) (s : σ),
      ∃ chunks : List (List (Call OUT)),
        calls (MMap t.run (pureMapper f)) y s = chunks.flatten
        ∧ List.Forall₂
            (fun c chunk => (∀ d ∈ chunk, d.err = (f c.v c.err).2)
              ∧ chunk.map Call.v = (f c.v c.err).1.take chunk.length)
            (calls t.run (mmapYield (pureMapper f) y) s) chunks)
    ∧ calls (MMap (fromItems [((2 : Nat), some "inner")])
          (pureMapper (fun t _ => (List.replicate t "x", some "mapped"))))
        (fun _ _ (u : Unit) => (true, u)) ()
        = [⟨"x", some "mapped", true⟩, ⟨"x", some "mapped", true⟩] := by
  have whole : ∀ (t : Script σ IN) (m : Mapper σ IN (List OUT)) (y : Yield σ OUT) (s : σ),
      ∃ chunks : List (List (Call OUT)),
        calls (MMap t.run (liftMapper m)) y s = chunks.flatten
        ∧ List.Forall₂
            (fun c chunk => ∃ s0 : σ, (∀ d ∈ chunk, d.err = (m c.v c.err s0).1.2)
              ∧ chunk.map Call.v = (m c.v c.err s0).1.1.take chunk.length)
            (calls t.run (mmapYield m y) s) chunks := by
    intro t m y s
    obtain ⟨chunks, h1, h2⟩ := script_mmap_traced t m y s []
    refine ⟨chunks, ?_, ?_⟩
    · simp only [calls, MMap, h1, List.nil_append]
    · rw [calls_script]
      exact List.Forall₂.imp (fun c chunk h => expandsTo_error_and_values m y c chunk h) h2
  refine ⟨?_, whole, ?_, by decide⟩
  · intro m y v err s log
    refine ⟨feed y ((m v err s).1.1.map (fun out => (out, (m v err s).1.2))) (m v err s).2,
      ?_, ?_, ?_⟩
    · simp only [mmapYield, liftMapper, rangeYield_traced]
    · intro d hd
      have hmem : d.item ∈ (feed y ((m v err s).1.1.map (fun out => (out, (m v err s).1.2)))
          (m v err s).2).map Call.item := List.mem_map_of_mem _ hd
      rw [feed_item_take] at hmem
      have := List.mem_of_mem_take hmem
      simp only [List.mem_map, Call.item, Prod.mk.injEq] at this
      obtain ⟨o, _, _, h3⟩ := this
      exact h3.symm
    · have h3 := congrArg (List.map Prod.fst) (feed_item_take
        ((m v err s).1.1.map (fun out => (out, (m v err s).1.2))) y (m v err s).2)
      simp only [List.map_map, List.map_take] at h3
      simpa [Function.comp_def, Call.item] using h3
  · intro t f y s
    obtain ⟨chunks, h1, h2⟩ := whole t (pureMapper f) y s
    refine ⟨chunks, h1, ?_⟩
    exact List.Forall₂.imp (fun c chunk h => by
      obtain ⟨_, h3, h4⟩ := h
      exact ⟨h3, h4⟩) h2

/-! ## Stopping after a false is preserved by Map and MMap -/

theorem noCallAfterFalse_nil {T : Type} : NoCallAfterFalse ([] : List (Call T)) := by
  intro pre c post h
  simp at h

theorem noCallAfterFalse_cons {T : Type} (c : Call T) (rest : List (Call T)) :
    NoCallAfterFalse (c :: rest)
      ↔ (c.ret = false → rest = []) ∧ NoCallAfterFalse rest := by
  constructor
  · intro h
    refine ⟨fun hc => ?_, ?_⟩
    · cases rest with
      | nil => rfl
      | cons d more =>
        have := h [] c (d :: more) rfl hc
        simp at this
    · intro pre d post hrest hd
      exact h (c :: pre) d post (by rw [hrest]; rfl) hd
  · rintro ⟨h1, h2⟩ pre d post heq hd
    cases pre with
    | nil =>
      simp only [List.nil_append, List.cons.injEq] at heq
      obtain ⟨rfl, rfl⟩ := heq
      exact h1 hd
    | cons e pre0 =>
      simp only [List.cons_append, List.cons.injEq] at heq
      exact h2 pre0 d post heq.2 hd

theorem noCallAfterFalse_of_ret_eq {A B : Type} (tr : List (Call A)) (tr2 : List (Call B))
    (h : tr.map Call.ret = tr2.map Call.ret) (hn : NoCallAfterFalse tr) :
    NoCallAfterFalse tr2 := by
  induction tr generalizing tr2 with
  | nil =>
    cases tr2 with
    | nil => exact noCallAfterFalse_nil
    | cons d more => simp at h
  | cons c rest ih =>
    cases tr2 with
    | nil => exact noCallAfterFalse_nil
    | cons d more =>
      simp only [List.map_cons, List.cons.injEq] at h
      rw [noCallAfterFalse_cons] at hn ⊢
      refine ⟨fun hd => ?_, ih more h.2 hn.2⟩
      have hrest := hn.1 (by rw [h.1]; exact hd)
      rw [hrest] at h
      simpa using h.2.symm

theorem noCallAfterFalse_feed {σ T : Type} (X : List (T × Error)) (y : Yield σ T) (s : σ) :
    NoCallAfterFalse (feed y X s) := by
  induction X generalizing s with
  | nil => exact noCallAfterFalse_nil
  | cons it rest ih =>
    simp only [feed]
    rw [noCallAfterFalse_cons]
    by_cases h : (y it.1 it.2 s).1 = true
    · simp only [h, if_true]
      exact ⟨fun hc => by simp at hc, ih _⟩
    · simp only [h]
      exact ⟨fun _ => rfl, noCallAfterFalse_nil⟩

theorem noCallAfterFalse_append {T : Type} (A B : List (Call T))
    (hA : NoCallAfterFalse A) (hB : NoCallAfterFalse B)
    (hstop : (∃ d ∈ A, d.ret = false) → B = []) : NoCallAfterFalse (A ++ B) := by
  induction A with
  | nil => simpa using hB
  | cons c rest ih =>
    rw [noCallAfterFalse_cons] at hA
    rw [List.cons_append, noCallAfterFalse_cons]
    refine ⟨fun hc => ?_, ih hA.2 (fun ⟨d, hd, hf⟩ => hstop ⟨d, List.mem_cons_of_mem _ hd, hf⟩)⟩
    rw [hA.1 hc, hstop ⟨c, List.mem_cons_self _ _, hc⟩]
    rfl

theorem rangeYield_false_of_feed {σ OUT : Type} (y : Yield σ OUT) (e : Error)
    (outs : List OUT) (s : σ)
    (h : ∃ d ∈ feed y (outs.map (fun out => (out, e))) s, d.ret = false) :
    (rangeYield y e outs s).1 = false := by
  induction outs generalizing s with
  | nil => simp [feed] at h
  | cons o rest ih =>
    simp only [List.map_cons, feed] at h
    simp only [rangeYield]
    by_cases hy : (y o e s).1 = true
    · simp only [hy, if_true, List.mem_cons] at h ⊢
      obtain ⟨d, hd, hf⟩ := h
      rcases hd with rfl | hd
      · simp at hf
      · exact ih _ ⟨d, hd, hf⟩
    · simp [hy]

theorem noCallAfterFalse_flatten {σ IN OUT : Type} (m : Mapper σ IN (List OUT))
    (y : Yield σ OUT) (inner : List (Call IN)) (chunks : List (List (Call OUT)))
    (h : List.Forall₂ (ExpandsTo m y) inner chunks) (hn : NoCallAfterFalse inner) :
    NoCallAfterFalse chunks.flatten := by
  induction h with
  | nil => exact noCallAfterFalse_nil
  | cons hc hrest ih =>
    rename_i c chunk cs chs
    rw [noCallAfterFalse_cons] at hn
    rw [List.flatten_cons]
    obtain ⟨s0, h1, h2⟩ := hc
    refine noCallAfterFalse_append _ _ ?_ (ih hn.2) ?_
    · rw [h2]
      exact noCallAfterFalse_feed _ _ _
    · intro hex
      rw [h2] at hex
      have hfalse := rangeYield_false_of_feed y _ _ _ hex
      have hcs := hn.1 (by rw [h1]; exact hfalse)
      subst hcs
      cases hrest
      rfl

theorem script_ofItems_feed {σ T : Type} (L : List (T × Error)) (y : Yield σ T) (s : σ) :
    (Script.ofItems L).feed y s = feed y L s := by
  induction L generalizing s with
  | nil => rfl
  | cons it rest ih =>
    simp only [Script.ofItems, Script.feed, feed, List.cons.injEq, true_and]
    by_cases h : (y it.1 it.2 s).1 = true
    · simp only [h, if_true]
      exact ih _
    · simp [h, Script.feed]

theorem noCallAfterFalse_ofItems {σ T : Type} (L : List (T × Error)) (y : Yield σ T) (s : σ) :
    NoCallAfterFalse (calls (Script.ofItems L).run y s) := by
  rw [calls_script, script_ofItems_feed]
  exact noCallAfterFalse_feed L y s

/-- C10: if a producer never invokes its callback again after the callback has
returned false, whatever the callback, then `Map` and `MMap` over it never
invoke their outer callback again after it has returned false, for every mapper
and every outer callback. -/
theorem C10_map_mmap_stop_after_false {σ IN : Type} (t : Script σ IN)
    (hg : ∀ (y : Yield σ IN) (s : σ), NoCallAfterFalse (calls t.run y s)) :
    ∀ (OUT : Type) (f : Mapper σ IN OUT) (m : Mapper σ IN (List OUT)) (y : Yield σ OUT)
      (s : σ),
      NoCallAfterFalse (calls (Map t.run (liftMapper f)) y s)
      ∧ NoCallAfterFalse (calls (MMap t.run (liftMapper m)) y s) := by
  intro OUT f m y s
  constructor
  · obtain ⟨extra, h1, h2⟩ := script_map_traced_ret t f y s []
    have hinner := hg (mapYield f y) s
    rw [calls_script] at hinner
    have hcalls : calls (Map t.run (liftMapper f)) y s = extra := by
      simp only [calls, Map, h1, List.nil_append]
    rw [hcalls]
    exact noCallAfterFalse_of_ret_eq _ _ h2.symm hinner
  · obtain ⟨chunks, h1, h2⟩ := script_mmap_traced t m y s []
    have hinner := hg (mmapYield m y) s
    rw [calls_script] at hinner
    have hcalls : calls (MMap t.run (liftMapper m)) y s = chunks.flatten := by
      simp only [calls, MMap, h1, List.nil_append]
    rw [hcalls]
    exact noCallAfterFalse_flatten m y _ _ h2 hinner

/-- Witness of C10 on the producer body of `genTest`, the mappers of `TestMap`
and `TestMMap`, and a consumer stopping on its second invocation. -/
theorem C10_map_mmap_stop_after_false_witness :
    NoCallAfterFalse (calls (Map (Script.ofItems [((1 : Nat), none), (2, none), (3, none)]).run
        (liftMapper (pureMapper (fun t err => (toString t, err))))) (stopAt 2) 0)
    ∧ NoCallAfterFalse (calls (MMap (Script.ofItems [((1 : Nat), none), (2, none), (3, none)]).run
        (liftMapper (pureMapper repeatDecimal))) (stopAt 2) 0) :=
  C10_map_mmap_stop_after_false (Script.ofItems [((1 : Nat), none), (2, none), (3, none)])
    (fun y s => noCallAfterFalse_ofItems _ y s) String
    (pureMapper (fun t err => (toString t, err))) (pureMapper repeatDecimal) (stopAt 2) 0

/-! ## Chan -/

theorem exec_append {σ T : Type} (signal : List T → Bool) (a b : List Move)
    (x : ChanState σ T) : x.exec signal (a ++ b) = (x.exec signal a).exec signal b := by
  induction a generalizing x with
  | nil => rfl
  | cons m ms ih => exact ih _

theorem exec_invariant {σ T : Type} (signal : List T → Bool) (P : ChanState σ T → Prop)
    (hstep : ∀ (m : Move) (x x2 : ChanState σ T), P x → x.step signal m = some x2 → P x2)
    (moves : List Move) (x : ChanState σ T) (hx : P x) : P (x.exec signal moves) := by
  induction moves generalizing x with
  | nil => exact hx
  | cons m ms ih =>
    simp only [ChanState.exec]
    cases h : x.step signal m with
    | none => simpa using ih x hx
    | some x2 => simpa using ih x2 (hstep m x x2 hx h)

theorem script_collect_acc {σ T : Type} (t : Script σ T) (s : σ) (acc : List T) :
    t.run collectYield (s, acc)
      = ((t.run collectYield (s, ([] : List T))).1,
          acc ++ (t.run collectYield (s, ([] : List T))).2) := by
  induction t generalizing s acc with
  | done => simp [Script.run]
  | eff step next ih =>
    simp only [Script.run]
    exact ih _ _ _
  | emit v err next ih =>
    cases err with
    | some msg =>
      simp only [Script.run, collectYield, ne_eq, reduceCtorEq, not_false_eq_true, if_true]
      exact ih _ _ _
    | none =>
      simp only [Script.run, collectYield, ne_eq, not_true_eq_false, if_false, List.nil_append]
      rw [ih true s (acc ++ [v]), ih true s [v]]
      simp

/-- What the consumer has and what is still on its way, together. -/
theorem chan_step_unsignalled {σ T : Type} (m : Move) (x x2 : ChanState σ T)
    (hc : x.cancelled = false) (h : x.step neverSignal m = some x2) :
    x2.cancelled = false
    ∧ x2.result ++ (x2.receiver.held ++ x2.worker.toDeliver x2.world)
        = x.result ++ (x.receiver.held ++ x.worker.toDeliver x.world) := by
  cases m with
  | work =>
    simp only [ChanState.step] at h
    split at h
    · cases h
      exact ⟨hc, by simp_all [Worker.toDeliver, Script.run]⟩
    · cases h
      exact ⟨hc, by simp_all [Worker.toDeliver, Script.run]⟩
    · rename_i v err next hw
      split at h
      · rename_i herr
        cases h
        refine ⟨hc, ?_⟩
        simp [hw, Worker.toDeliver, Script.run, collectYield, herr]
      · rename_i herr
        simp only [hc, Bool.false_eq_true, if_false, Option.some.injEq] at h
        cases h
        refine ⟨rfl, ?_⟩
        have he : err = none := by simpa using herr
        subst he
        simp only [hw, Worker.toDeliver, Script.run, collectYield, ne_eq, not_true_eq_false,
          if_false, List.nil_append]
        rw [script_collect_acc (next true) x.world [v]]
        simp
    · cases h
    · cases h
  | handoff =>
    simp only [ChanState.step] at h
    split at h
    · rename_i v next hw hr
      cases h
      exact ⟨hc, by simp [hw, hr, Worker.toDeliver, Receiver.held]⟩
    · cases h
  | consume =>
    simp only [ChanState.step] at h
    split at h
    · rename_i v hr
      cases h
      exact ⟨by simp [hc, neverSignal], by simp [hr, Receiver.held]⟩
    · split at h
      · rename_i hr _ hw
        cases h
        exact ⟨hc, by simp [hr, hw, Receiver.held, Worker.toDeliver]⟩
      · cases h
    · cases h

theorem chan_step_finished_closed {σ T : Type} (signal : List T → Bool) (m : Move)
    (x x2 : ChanState σ T) (hx : x.receiver = .finished → x.worker.isClosed = true)
    (h : x.step signal m = some x2) :
    x2.receiver = .finished → x2.worker.isClosed = true := by
  cases m with
  | work =>
    simp only [ChanState.step] at h
    split at h
    · cases h
      intro _
      rfl
    · rename_i hw
      cases h
      intro hf
      simpa [hw, Worker.isClosed] using hx hf
    · rename_i hw
      intro hf
      split at h
      · cases h
        simpa [hw, Worker.isClosed] using hx hf
      · split at h
        · cases h
          simpa [hw, Worker.isClosed] using hx hf
        · cases h
          simpa [hw, Worker.isClosed] using hx hf
    · cases h
    · cases h
  | handoff =>
    simp only [ChanState.step] at h
    split at h
    · cases h
      intro hf
      cases hf
    · cases h
  | consume =>
    simp only [ChanState.step] at h
    split at h
    · cases h
      intro hf
      cases hf
    · split at h
      · rename_i hw
        cases h
        intro _
        simp [hw, Worker.isClosed]
      · cases h
    · cases h

theorem chan_finish_running_unsignalled {σ T : Type} (t : Script σ T) (s : σ)
    (r : Receiver T) (res : List T) (log : List (Call T)) (hr : r ≠ .finished) :
    ∃ more : List Move,
      (ChanState.exec neverSignal more
        ⟨s, false, .running t, r, res, log⟩).receiver = .finished := by
  induction t generalizing s r res log with
  | done =>
    cases r with
    | receiving => exact ⟨[.work, .consume], rfl⟩
    | holding u => exact ⟨[.consume, .work, .consume], rfl⟩
    | finished => exact absurd rfl hr
  | eff step next ih =>
    obtain ⟨more, h⟩ := ih s (step s) r res log hr
    exact ⟨.work :: more, h⟩
  | emit v err next ih =>
    cases err with
    | some msg =>
      obtain ⟨more, h⟩ := ih false s r res (log ++ [⟨v, some msg, false⟩]) hr
      exact ⟨.work :: more, h⟩
    | none =>
      cases r with
      | receiving =>
        obtain ⟨more, h⟩ := ih true s (.holding v) res (log ++ [⟨v, none, true⟩]) (by simp)
        exact ⟨.work :: .handoff :: more, h⟩
      | holding u =>
        obtain ⟨more, h⟩ := ih true s (.holding v) (res ++ [u]) (log ++ [⟨v, none, true⟩])
          (by simp)
        exact ⟨.consume :: .work :: .handoff :: more, h⟩
      | finished => exact absurd rfl hr

theorem chan_finish_unsignalled {σ T : Type} (x : ChanState σ T) (hc : x.cancelled = false)
    (hx : x.receiver = .finished → x.worker.isClosed = true) :
    ∃ more : List Move, (x.exec neverSignal more).receiver = .finished := by
  obtain ⟨s, c, w, r, res, log⟩ := x
  simp only at hc hx
  subst hc
  cases r with
  | finished => exact ⟨[], rfl⟩
  | receiving =>
    cases w with
    | running t => exact chan_finish_running_unsignalled t s _ res log (by simp)
    | sending v next =>
      obtain ⟨more, h⟩ := chan_finish_running_unsignalled (next true) s (.holding v) res
        (log ++ [⟨v, none, true⟩]) (by simp)
      exact ⟨.handoff :: more, h⟩
    | closed => exact ⟨[.consume], rfl⟩
  | holding u =>
    cases w with
    | running t => exact chan_finish_running_unsignalled t s _ res log (by simp)
    | sending v next =>
      obtain ⟨more, h⟩ := chan_finish_running_unsignalled (next true) s (.holding v)
        (res ++ [u]) (log ++ [⟨v, none, true⟩]) (by simp)
      exact ⟨.consume :: .handoff :: more, h⟩
    | closed => exact ⟨[.consume, .consume], rfl⟩

theorem script_ofItems_run {σ α T : Type} (L : List (T × Error)) (y : Yield (σ × α) T)
    (st : σ × α) : (Script.ofItems L).run y st = fromItems L y st := by
  induction L generalizing st with
  | nil => rfl
  | cons it rest ih =>
    simp only [Script.ofItems, Script.run, fromItems]
    by_cases h : (y it.1 it.2 st).1 = true
    · simp only [h, if_true]
      exact ih _
    · simp [h, Script.run]

theorem chan_unsignalled {σ T : Type} (t : Script σ T) (s : σ) (moves : List Move) :
    ((Chan t false s).exec neverSignal moves).result
        = (Collect t.run s).1.take ((Chan t false s).exec neverSignal moves).result.length
    ∧ (((Chan t false s).exec neverSignal moves).receiver = .finished →
        ((Chan t false s).exec neverSignal moves).result = (Collect t.run s).1
        ∧ ((Chan t false s).exec neverSignal moves).worker.isClosed = true)
    ∧ (∃ more : List Move,
        ((Chan t false s).exec neverSignal (moves ++ more)).receiver = .finished) := by
  have hinv := exec_invariant neverSignal
    (fun x : ChanState σ T => x.cancelled = false
      ∧ x.result ++ (x.receiver.held ++ x.worker.toDeliver x.world) = (Collect t.run s).1
      ∧ (x.receiver = .finished → x.worker.isClosed = true))
    (fun m x x2 hx h =>
      ⟨(chan_step_unsignalled m x x2 hx.1 h).1,
       ((chan_step_unsignalled m x x2 hx.1 h).2).trans hx.2.1,
       chan_step_finished_closed neverSignal m x x2 hx.2.2 h⟩)
    moves (Chan t false s)
    ⟨rfl, by simp [Chan, Receiver.held, Worker.toDeliver, Collect], fun h => by cases h⟩
  obtain ⟨h1, h2, h3⟩ := hinv
  refine ⟨?_, ?_, ?_⟩
  · rw [← h2]
    simp
  · intro hf
    have hclosed := h3 hf
    refine ⟨?_, hclosed⟩
    rw [← h2, hf]
    cases hw : ((Chan t false s).exec neverSignal moves).worker with
    | closed => simp [Receiver.held, Worker.toDeliver]
    | running t2 => simp [hw, Worker.isClosed] at hclosed
    | sending v next => simp [hw, Worker.isClosed] at hclosed
  · obtain ⟨more, h⟩ := chan_finish_unsignalled _ h1 h3
    exact ⟨more, by rw [exec_append]; exact h⟩

/-- C11: with the token never signalled and a consumer that receives until the
channel is closed, in every interleaving of worker and consumer what the
consumer has received so far is an initial segment of `g.Collect()`, in order;
when the consumer finds the channel closed it has received exactly
`g.Collect()`, the values before the first item with an error (all `N` when there
is none, the first `k - 1` when the `k`-th carries one); and every interleaving
can be continued to that point.  The same holds over any producer body. -/
theorem C11_chan_unsignalled_delivers_collect {σ T : Type} (L : List (T × Error)) (s : σ)
    (moves : List Move) :
    ((Chan (Script.ofItems L) false s).exec neverSignal moves).result
        = (Collect (fromItems L) s).1.take
            ((Chan (Script.ofItems L) false s).exec neverSignal moves).result.length
    ∧ (((Chan (Script.ofItems L) false s).exec neverSignal moves).receiver = .finished →
        ((Chan (Script.ofItems L) false s).exec neverSignal moves).result
            = (Collect (fromItems L) s).1
        ∧ ((Chan (Script.ofItems L) false s).exec neverSignal moves).worker.isClosed = true)
    ∧ (∃ more : List Move,
        ((Chan (Script.ofItems L) false s).exec neverSignal (moves ++ more)).receiver
          = .finished)
    ∧ (Collect (fromItems L) s).1 = valuesBeforeError L
    ∧ (∀ (t : Script σ T) (s0 : σ) (ms : List Move),
        ((Chan t false s0).exec neverSignal ms).receiver = .finished →
        ((Chan t false s0).exec neverSignal ms).result = (Collect t.run s0).1)
    ∧ (((Chan (Script.ofItems genTestItems) false ()).exec neverSignal
          [.work, .handoff, .consume, .work, .handoff, .consume, .work, .handoff, .consume,
           .work, .consume]).receiver = .finished
        ∧ ((Chan (Script.ofItems genTestItems) false ()).exec neverSignal
          [.work, .handoff, .consume, .work, .handoff, .consume, .work, .handoff, .consume,
           .work, .consume]).result = ["value1", "value2", "value3"])
    ∧ (((Chan (Script.ofItems genTest2EItems) false ()).exec neverSignal
          [.work, .handoff, .consume, .work, .work, .consume]).receiver = .finished
        ∧ ((Chan (Script.ofItems genTest2EItems) false ()).exec neverSignal
          [.work, .handoff, .consume, .work, .work, .consume]).result = ["value1"]) := by
  have hcol : Collect (Script.ofItems L).run s = Collect (fromItems L) s := by
    simp only [Collect, script_ofItems_run]
  obtain ⟨h1, h2, h3⟩ := chan_unsignalled (Script.ofItems L) s moves
  rw [hcol] at h1 h2
  refine ⟨h1, h2, h3, by rw [collect_fromItems], ?_, ⟨by decide, by decide⟩,
    ⟨by decide, by decide⟩⟩
  intro t s0 ms hf
  exact ((chan_unsignalled t s0 ms).2.1 hf).1

theorem signalAt_succ {T : Type} (n : Nat) (res : List T) :
    signalAt ((n : Int) + 1) res = decide (res.length = n + 1) := by
  simp only [signalAt]
  by_cases h : res.length = n + 1
  · simp [h]
  · simp only [h, decide_False, beq_eq_false_iff_ne, ne_eq]
    intro hc
    exact h (by omega)

theorem chan_step_overshoot {σ T : Type} (n : Nat) (m : Move) (x x2 : ChanState σ T)
    (hx : (x.cancelled = false → x.result.length + x.receiver.held.length ≤ n + 1
            ∧ x.result.length < n + 1)
      ∧ x.result.length + x.inFlight ≤ n + 2)
    (h : x.step (signalAt ((n : Int) + 1)) m = some x2) :
    (x2.cancelled = false → x2.result.length + x2.receiver.held.length ≤ n + 1
        ∧ x2.result.length < n + 1)
    ∧ x2.result.length + x2.inFlight ≤ n + 2 := by
  obtain ⟨h1, h2⟩ := hx
  cases m with
  | work =>
    simp only [ChanState.step] at h
    split at h
    · rename_i hw
      cases h
      simp only [ChanState.inFlight, hw, Worker.isSending] at h2 ⊢
      exact ⟨h1, h2⟩
    · rename_i hw
      cases h
      simp only [ChanState.inFlight, hw, Worker.isSending] at h2 ⊢
      exact ⟨h1, h2⟩
    · rename_i hw
      split at h
      · cases h
        simp only [ChanState.inFlight, hw, Worker.isSending] at h2 ⊢
        exact ⟨h1, h2⟩
      · split at h
        · cases h
          simp only [ChanState.inFlight, hw, Worker.isSending] at h2 ⊢
          exact ⟨h1, h2⟩
        · rename_i hc
          cases h
          have hc2 : x.cancelled = false := by simpa using hc
          have := h1 hc2
          simp only [ChanState.inFlight, hw, Worker.isSending] at h2 ⊢
          refine ⟨h1, ?_⟩
          simp only [if_true]
          omega
    · cases h
    · cases h
  | handoff =>
    simp only [ChanState.step] at h
    split at h
    · rename_i hw hr
      cases h
      simp only [ChanState.inFlight, hw, hr, Worker.isSending, Receiver.held, List.length_nil,
        if_true, List.length_singleton, Bool.false_eq_true, if_false] at h1 h2 ⊢
      refine ⟨fun hc => ?_, by omega⟩
      have := h1 hc
      omega
    · cases h
  | consume =>
    simp only [ChanState.step] at h
    split at h
    · rename_i v hr
      cases h
      simp only [ChanState.inFlight, hr, Receiver.held, List.length_singleton, List.length_nil,
        List.length_append, Bool.or_eq_false_iff, signalAt_succ, decide_eq_false_iff_not]
        at h1 h2 ⊢
      refine ⟨fun hc => ?_, by omega⟩
      have := h1 hc.1
      have := hc.2
      omega
    · split at h
      · rename_i hr _ hw
        cases h
        simp only [ChanState.inFlight, hr, hw, Receiver.held, Worker.isSending] at h1 h2 ⊢
        exact ⟨h1, h2⟩
      · cases h
    · cases h

theorem chan_step_returnsIn {σ T : Type} (P : σ → Prop) (signal : List T → Bool) (m : Move)
    (x x2 : ChanState σ T) (hx : x.worker.returnsIn P x.world)
    (h : x.step signal m = some x2) : x2.worker.returnsIn P x2.world := by
  cases m with
  | work =>
    simp only [ChanState.step] at h
    split at h
    · rename_i hw
      cases h
      simpa [hw, Worker.returnsIn, Script.returnsIn] using hx
    · rename_i hw
      cases h
      simpa [hw, Worker.returnsIn, Script.returnsIn] using hx
    · rename_i v err next hw
      have hall : ∀ b : Bool, (next b).returnsIn P x.world := by
        simpa [hw, Worker.returnsIn, Script.returnsIn] using hx
      split at h
      · cases h
        exact hall false
      · split at h
        · cases h
          exact hall false
        · cases h
          exact hall true
    · cases h
    · cases h
  | handoff =>
    simp only [ChanState.step] at h
    split at h
    · rename_i hw _
      cases h
      simpa [hw, Worker.returnsIn] using hx
    · cases h
  | consume =>
    simp only [ChanState.step] at h
    split at h
    · cases h
      exact hx
    · split at h
      · cases h
        exact hx
      · cases h
    · cases h

theorem yieldChain_returnsIn {α T : Type} (items : List (T × Error)) (w : TestWorld × α) :
    (yieldChain items : Script (TestWorld × α) T).returnsIn
      (fun w0 => w0.1.generatorClosed = true) w := by
  induction items with
  | nil => simp [yieldChain, deferredClose, Script.returnsIn, closeFlag]
  | cons it rest ih =>
    simp only [yieldChain, Script.returnsIn]
    intro b
    cases b with
    | true => simpa using ih
    | false => simp [deferredClose, Script.returnsIn, closeFlag]

theorem chanToSlice_overshoot {σ T : Type} (t : Script σ T) (n : Nat) (s : σ)
    (moves : List Move) :
    (chanToSlice t ((n : Int) + 1) moves s).result.length ≤ n + 2 := by
  have hinit : (((n : Int) + 1) == 0) = false := by
    simp only [beq_eq_false_iff_ne, ne_eq]
    omega
  have hinv := exec_invariant (signalAt ((n : Int) + 1))
    (fun x : ChanState σ T =>
      (x.cancelled = false → x.result.length + x.receiver.held.length ≤ n + 1
          ∧ x.result.length < n + 1)
      ∧ x.result.length + x.inFlight ≤ n + 2)
    (fun m x x2 hx h => chan_step_overshoot n m x x2 hx h)
    moves (Chan t (((n : Int) + 1) == 0) s)
    ⟨fun _ => by simp [Chan, Receiver.held],
      by simp [Chan, ChanState.inFlight, Receiver.held, Worker.isSending]⟩
  have := hinv.2
  simp only [chanToSlice]
  omega

theorem chanToSlice_flag_at_close {α T : Type} (items : List (T × Error)) (limit : Int)
    (moves : List Move) (w : TestWorld × α)
    (hclosed : (chanToSlice (flaggedBody items) limit moves w).worker.isClosed = true) :
    (chanToSlice (flaggedBody items) limit moves w).world.1.generatorClosed = true := by
  have hinv : ((Chan (flaggedBody items) (limit == 0) w).exec (signalAt limit)
      moves).worker.returnsIn (fun w0 : TestWorld × α => w0.1.generatorClosed = true)
      ((Chan (flaggedBody items) (limit == 0) w).exec (signalAt limit) moves).world :=
    exec_invariant (signalAt limit)
      (fun x : ChanState (TestWorld × α) T =>
        x.worker.returnsIn (fun w0 => w0.1.generatorClosed = true) x.world)
      (fun m x x2 hx h =>
        chan_step_returnsIn (fun w0 : TestWorld × α => w0.1.generatorClosed = true)
          (signalAt limit) m x x2 hx h)
      moves (Chan (flaggedBody items) (limit == 0) w)
      (by
        simp only [Chan, Worker.returnsIn, flaggedBody, Script.returnsIn]
        exact yieldChain_returnsIn items _)
  simp only [chanToSlice] at hclosed ⊢
  cases hw : ((Chan (flaggedBody items) (limit == 0) w).exec (signalAt limit) moves).worker with
  | closed =>
    rw [hw] at hinv
    exact hinv
  | running t2 => simp [hw, Worker.isClosed] at hclosed
  | sending v next => simp [hw, Worker.isClosed] at hclosed

/-- C12: `chanToSlice(genTest, 2)`, the consumer signalling the token right after
the second value.  In the interleaving where the worker has polled the token for
the third value before the consumer signals it, the worker is already blocked in
`out <- value3`; the consumer, receiving until the channel is closed, takes that
value too and ends with three values.  In the interleaving where the consumer
signals first, it ends with two.  In both the flag `generatorClosed` is true and
the channel closed at the end.  In general a consumer signalling after its
`k`-th value never has more than `k + 1` values, and for the test generators the
flag is true whenever the channel is closed. -/
theorem C12_chan_cancel_after_k_may_deliver_one_more :
    ((chanToSlice (flaggedBody genTestItems) 2 (pollBeforeCancel.take 8)
          (⟨false, 0⟩, ())).cancelled = true
      ∧ (chanToSlice (flaggedBody genTestItems) 2 (pollBeforeCancel.take 8)
          (⟨false, 0⟩, ())).result = ["value1", "value2"]
      ∧ (chanToSlice (flaggedBody genTestItems) 2 (pollBeforeCancel.take 8)
          (⟨false, 0⟩, ())).worker.isSending = true)
    ∧ ((chanToSlice (flaggedBody genTestItems) 2 pollBeforeCancel
          (⟨false, 0⟩, ())).receiver = .finished
      ∧ (chanToSlice (flaggedBody genTestItems) 2 pollBeforeCancel
          (⟨false, 0⟩, ())).worker.isClosed = true
      ∧ (chanToSlice (flaggedBody genTestItems) 2 pollBeforeCancel
          (⟨false, 0⟩, ())).world.1.generatorClosed = true
      ∧ (chanToSlice (flaggedBody genTestItems) 2 pollBeforeCancel
          (⟨false, 0⟩, ())).result = ["value1", "value2", "value3"])
    ∧ ((chanToSlice (flaggedBody genTestItems) 2 cancelBeforePoll
          (⟨false, 0⟩, ())).receiver = .finished
      ∧ (chanToSlice (flaggedBody genTestItems) 2 cancelBeforePoll
          (⟨false, 0⟩, ())).worker.isClosed = true
      ∧ (chanToSlice (flaggedBody genTestItems) 2 cancelBeforePoll
          (⟨false, 0⟩, ())).world.1.generatorClosed = true
      ∧ (chanToSlice (flaggedBody genTestItems) 2 cancelBeforePoll
          (⟨false, 0⟩, ())).result = ["value1", "value2"])
    ∧ (∀ (σ T : Type) (t : Script σ T) (n : Nat) (s : σ) (moves : List Move),
        (chanToSlice t ((n : Int) + 1) moves s).result.length ≤ n + 2)
    ∧ (∀ (α T : Type) (items : List (T × Error)) (limit : Int) (moves : List Move)
        (w : TestWorld × α),
        (chanToSlice (flaggedBody items) limit moves w).worker.isClosed = true →
        (chanToSlice (flaggedBody items) limit moves w).world.1.generatorClosed = true) := by
  refine ⟨⟨by decide, by decide, by decide⟩, ⟨by decide, by decide, by decide, by decide⟩,
    ⟨by decide, by decide, by decide, by decide⟩, ?_, ?_⟩
  · intro σ T t n s moves
    exact chanToSlice_overshoot t n s moves
  · intro α T items limit moves w h
    exact chanToSlice_flag_at_close items limit moves w h

theorem chan_step_signalled {σ T : Type} (signal : List T → Bool) (target : List (Call T) × σ)
    (m : Move) (x x2 : ChanState σ T)
    (hx : x.cancelled = true ∧ x.result = [] ∧ x.receiver.held = [] ∧ x.worker.isSending = false
      ∧ (∀ c ∈ x.log, c.ret = false)
      ∧ (x.log ++ (x.worker.whenRefused x.world).1, (x.worker.whenRefused x.world).2) = target)
    (h : x.step signal m = some x2) :
    x2.cancelled = true ∧ x2.result = [] ∧ x2.receiver.held = [] ∧ x2.worker.isSending = false
      ∧ (∀ c ∈ x2.log, c.ret = false)
      ∧ (x2.log ++ (x2.worker.whenRefused x2.world).1, (x2.worker.whenRefused x2.world).2)
          = target := by
  obtain ⟨hc, hres, hheld, hsend, hlog, htarget⟩ := hx
  cases m with
  | work =>
    simp only [ChanState.step] at h
    split at h
    · rename_i hw
      cases h
      refine ⟨hc, hres, hheld, rfl, hlog, ?_⟩
      simpa [hw, Worker.whenRefused, Script.feed, Script.exec] using htarget
    · rename_i f next hw
      cases h
      refine ⟨hc, hres, hheld, rfl, hlog, ?_⟩
      simpa [hw, Worker.whenRefused, Script.feed, Script.exec] using htarget
    · rename_i v err next hw
      have hgo : (x.log ++ [⟨v, err, false⟩] ++ ((next false).feed refuse x.world),
          (next false).exec refuse x.world) = target := by
        simpa [hw, Worker.whenRefused, Script.feed, Script.exec, refuse] using htarget
      have hlog2 : ∀ c ∈ x.log ++ [⟨v, err, false⟩], c.ret = false := by
        intro c hcmem
        rcases List.mem_append.mp hcmem with h1 | h1
        · exact hlog c h1
        · simp only [List.mem_singleton] at h1
          rw [h1]
      split at h
      · cases h
        exact ⟨hc, hres, hheld, rfl, hlog2, hgo⟩
      · simp only [hc, if_true, Option.some.injEq] at h
        cases h
        exact ⟨rfl, hres, hheld, rfl, hlog2, hgo⟩
    · cases h
    · cases h
  | handoff =>
    simp only [ChanState.step] at h
    split at h
    · rename_i hw _
      simp [hw, Worker.isSending] at hsend
    · cases h
  | consume =>
    simp only [ChanState.step] at h
    split at h
    · rename_i hr
      simp [hr, Receiver.held] at hheld
    · split at h
      · rename_i hw
        cases h
        refine ⟨hc, hres, rfl, ?_, hlog, ?_⟩
        · simp [hw, Worker.isSending]
        · simpa [hw, Worker.whenRefused] using htarget
      · cases h
    · cases h

theorem chan_finish_running_signalled {σ T : Type} (signal : List T → Bool) (t : Script σ T)
    (s : σ) (res : List T) (log : List (Call T)) :
    ∃ more : List Move,
      (ChanState.exec signal more ⟨s, true, .running t, .receiving, res, log⟩).receiver
        = .finished := by
  induction t generalizing s log with
  | done => exact ⟨[.work, .consume], rfl⟩
  | eff step next ih =>
    obtain ⟨more, h⟩ := ih s (step s) log
    exact ⟨.work :: more, h⟩
  | emit v err next ih =>
    obtain ⟨more, h⟩ := ih false s (log ++ [⟨v, err, false⟩])
    refine ⟨.work :: more, ?_⟩
    cases err with
    | none => exact h
    | some msg => exact h

/-- C13: when the token is already signalled at the call of `Chan`, then for every
generator, every consumer policy and every interleaving: the consumer has
received nothing and holds nothing, the worker is never blocked in a send, and
every invocation of the worker's callback has returned false; when the channel
is closed the generator has run exactly as against a callback that always
returns false, and a list generator has made one invocation, on its first item;
every interleaving can be continued until the consumer finds the channel
closed.  `chanToSlice(genTest, 0)` ends with no value and the flag set. -/
theorem C13_chan_signalled_hands_over_nothing {σ T : Type} (t : Script σ T)
    (signal : List T → Bool) (s : σ) (moves : List Move) :
    ((Chan t true s).exec signal moves).result = []
    ∧ ((Chan t true s).exec signal moves).receiver.held = []
    ∧ ((Chan t true s).exec signal moves).worker.isSending = false
    ∧ (∀ c ∈ ((Chan t true s).exec signal moves).log, c.ret = false)
    ∧ (((Chan t true s).exec signal moves).worker.isClosed = true →
        ((Chan t true s).exec signal moves).log = t.feed refuse s
        ∧ ((Chan t true s).exec signal moves).world = t.exec refuse s)
    ∧ (∃ more : List Move,
        ((Chan t true s).exec signal (moves ++ more)).receiver = .finished)
    ∧ (∀ (it : T × Error) (rest : List (T × Error)),
        (Script.ofItems (it :: rest)).feed refuse s = [⟨it.1, it.2, false⟩])
    ∧ ((chanToSlice (flaggedBody genTestItems) 0 [.work, .work, .work, .work, .consume]
          (⟨false, 0⟩, ())).receiver = .finished
      ∧ (chanToSlice (flaggedBody genTestItems) 0 [.work, .work, .work, .work, .consume]
          (⟨false, 0⟩, ())).result = []
      ∧ (chanToSlice (flaggedBody genTestItems) 0 [.work, .work, .work, .work, .consume]
          (⟨false, 0⟩, ())).log = [⟨"value1", none, false⟩]
      ∧ (chanToSlice (flaggedBody genTestItems) 0 [.work, .work, .work, .work, .consume]
          (⟨false, 0⟩, ())).world.1.generatorClosed = true) := by
  have hinv := exec_invariant signal
    (fun x : ChanState σ T => x.cancelled = true ∧ x.result = [] ∧ x.receiver.held = []
      ∧ x.worker.isSending = false ∧ (∀ c ∈ x.log, c.ret = false)
      ∧ (x.log ++ (x.worker.whenRefused x.world).1, (x.worker.whenRefused x.world).2)
          = (t.feed refuse s, t.exec refuse s))
    (fun m x x2 hx h => chan_step_signalled signal _ m x x2 hx h)
    moves (Chan t true s)
    ⟨rfl, rfl, rfl, rfl, fun c hc => by simp [Chan] at hc,
      by simp [Chan, Worker.whenRefused]⟩
  obtain ⟨hc, hres, hheld, hsend, hlog, htarget⟩ := hinv
  refine ⟨hres, hheld, hsend, hlog, ?_, ?_, ?_, ⟨by decide, by decide, by decide, by decide⟩⟩
  · intro hclosed
    cases hw : ((Chan t true s).exec signal moves).worker with
    | closed =>
      rw [hw] at htarget
      simp only [Worker.whenRefused, List.append_nil, Prod.mk.injEq] at htarget
      exact htarget
    | running t2 => simp [hw, Worker.isClosed] at hclosed
    | sending v next => simp [hw, Worker.isClosed] at hclosed
  · have hfin : ∃ more : List Move,
        (((Chan t true s).exec signal moves).exec signal more).receiver = .finished := by
      clear hlog htarget
      generalize (Chan t true s).exec signal moves = x at hc hres hheld hsend
      obtain ⟨w0, c0, w, r, res, log⟩ := x
      simp only at hc hres hheld hsend
      subst hc
      cases r with
      | finished => exact ⟨[], rfl⟩
      | holding u => simp [Receiver.held] at hheld
      | receiving =>
        cases w with
        | running t2 => exact chan_finish_running_signalled signal t2 w0 res log
        | sending v next => simp [Worker.isSending] at hsend
        | closed => exact ⟨[.consume], rfl⟩
    obtain ⟨more, h⟩ := hfin
    exact ⟨more, by rw [exec_append]; exact h⟩
  · intro it rest
    simp [Script.ofItems, Script.feed, refuse]

/-! ## The test generators and their flag -/

theorem yieldChain_run_closed {α β T : Type} (items : List (T × Error))
    (y : Yield ((TestWorld × α) × β) T) (st : (TestWorld × α) × β) :
    ((yieldChain items).run y st).1.1.generatorClosed = true := by
  induction items generalizing st with
  | nil => rfl
  | cons it rest ih =>
    simp only [yieldChain, Script.run]
    by_cases h : (y it.1 it.2 st).1 = true
    · simp only [h, if_true]
      exact ih _
    · simp only [h]
      rfl

theorem yieldChain_run_cleanups {α β T : Type} (items : List (T × Error))
    (y : Yield ((TestWorld × α) × β) T) (st : (TestWorld × α) × β)
    (hy : ∀ v err st0, (y v err st0).2.1.1.cleanups = st0.1.1.cleanups) :
    ((yieldChain items).run y st).1.1.cleanups = st.1.1.cleanups + 1 := by
  induction items generalizing st with
  | nil => rfl
  | cons it rest ih =>
    simp only [yieldChain, Script.run]
    by_cases h : (y it.1 it.2 st).1 = true
    · simp only [h, if_true]
      rw [ih, hy]
    · simp only [h]
      show (y it.1 it.2 st).2.1.1.cleanups + 1 = st.1.1.cleanups + 1
      rw [hy]

theorem yieldChain_feed {α T : Type} (items : List (T × Error))
    (y : Yield (TestWorld × α) T) (w : TestWorld × α) :
    (yieldChain items).feed y w = feed y items w := by
  induction items generalizing w with
  | nil => rfl
  | cons it rest ih =>
    simp only [yieldChain, Script.feed, feed, List.cons.injEq, true_and]
    by_cases h : (y it.1 it.2 w).1 = true
    · simp only [h, if_true]
      exact ih _
    · simp only [h]
      rfl

theorem calls_flaggedBody {α T : Type} (items : List (T × Error))
    (y : Yield (TestWorld × α) T) (w : TestWorld × α) :
    calls (flaggedBody items).run y w = feed y items (openFlag w) := by
  rw [calls_script]
  simp only [flaggedBody, Script.feed]
  exact yieldChain_feed items y _

theorem flaggedBody_run_closed {α β T : Type} (items : List (T × Error))
    (y : Yield ((TestWorld × α) × β) T) (st : (TestWorld × α) × β) :
    ((flaggedBody items).run y st).1.1.generatorClosed = true := by
  simp only [flaggedBody, Script.run]
  exact yieldChain_run_closed items y _

/-- C14: for the test generators over any items (`genTest`, `genTest2E` among
them) and every callback: the flag `generatorClosed` is true when the generator
returns; the deferred function has run exactly once, provided the callback
leaves the count alone; the callback is invoked on the items in order and never
again after it has returned false.  Hence the flag is true after
`seqToSlice(g, limit)` for every `limit` and after `Collect`. -/
theorem C14_test_generators_unwind_once {α β T : Type} (items : List (T × Error))
    (y : Yield ((TestWorld × α) × β) T) (st : (TestWorld × α) × β)
    (hy : ∀ v err st0, (y v err st0).2.1.1.cleanups = st0.1.1.cleanups) :
    ((flaggedBody items).run y st).1.1.generatorClosed = true
    ∧ ((flaggedBody items).run y st).1.1.cleanups = st.1.1.cleanups + 1
    ∧ (∀ (y0 : Yield (TestWorld × α) T) (w : TestWorld × α),
        NoCallAfterFalse (calls (flaggedBody items).run y0 w)
        ∧ calls (flaggedBody items).run y0 w = feed y0 items (openFlag w))
    ∧ (∀ (limit : Int) (w : TestWorld × α),
        (seqToSlice (flaggedBody items).run limit w).2.1.generatorClosed = true)
    ∧ (∀ (w : TestWorld × α), (Collect (flaggedBody items).run w).2.1.generatorClosed = true)
    ∧ (∀ (limit : Int) (w : TestWorld × α),
        (seqToSlice genTest limit w).2.1.generatorClosed = true
        ∧ (seqToSlice genTest2E limit w).2.1.generatorClosed = true)
    ∧ (seqToSlice genTest 2 ((⟨false, 0⟩ : TestWorld), ())
          = (["value1", "value2"], (⟨true, 1⟩, ()))
      ∧ seqToSlice genTest2E 3 ((⟨false, 0⟩ : TestWorld), ())
          = (["value1"], (⟨true, 1⟩, ()))) := by
  refine ⟨flaggedBody_run_closed items y st, ?_, ?_, ?_, ?_, ?_, ⟨by decide, by decide⟩⟩
  · simp only [flaggedBody, Script.run]
    rw [yieldChain_run_cleanups items y _ hy]
    rfl
  · intro y0 w
    refine ⟨?_, calls_flaggedBody items y0 w⟩
    rw [calls_flaggedBody]
    exact noCallAfterFalse_feed _ _ _
  · intro limit w
    exact flaggedBody_run_closed items _ _
  · intro w
    exact flaggedBody_run_closed items _ _
  · intro limit w
    exact ⟨flaggedBody_run_closed genTestItems _ _, flaggedBody_run_closed genTest2EItems _ _⟩

/-- Witness of C14 on `genTest` and the callback of `Collect`. -/
theorem C14_test_generators_unwind_once_witness :
    ((flaggedBody genTestItems).run collectYield
        (((⟨false, 0⟩ : TestWorld), ()), ([] : List String))).1.1.generatorClosed = true
    ∧ ((flaggedBody genTestItems).run collectYield
        (((⟨false, 0⟩ : TestWorld), ()), ([] : List String))).1.1.cleanups = 0 + 1 :=
  ⟨(C14_test_generators_unwind_once genTestItems collectYield
      (((⟨false, 0⟩ : TestWorld), ()), ([] : List String))
      (fun v err st0 => by cases err <;> rfl)).1,
   (C14_test_generators_unwind_once genTestItems collectYield
      (((⟨false, 0⟩ : TestWorld), ()), ([] : List String))
      (fun v err st0 => by cases err <;> rfl)).2.1⟩

/-! ## Fail-fast after Map -/

/-- C15: over a list generator, `Map(g, f).Collect()` is the list of mapped values
of the items before the first item whose mapped error is non-nil.  A mapper that
always returns a nil error gives one value for every item, errors of `g`
notwithstanding; when the mapped error is nil on the items `pre` and non-nil on
the next item, the result is the mapped values of `pre` and no more. -/
theorem C15_map_collect_fails_on_mapped_error {σ IN OUT : Type}
    (f : IN → Error → OUT × Error) (s : σ) (pre post : List (IN × Error)) (x : IN × Error)
    (hpre : ∀ it ∈ pre, (f it.1 it.2).2 = none) (hx : (f x.1 x.2).2 ≠ none) :
    (∀ L : List (IN × Error),
      (Collect (Map (fromItems L) (pureMapper f)) s).1 = valuesBeforeError (mapItems f L))
    ∧ (∀ (h : IN → Error → OUT) (L : List (IN × Error)),
      (Collect (Map (fromItems L) (pureMapper (fun v e => (h v e, none)))) s).1
        = L.map (fun it => h it.1 it.2))
    ∧ (Collect (Map (fromItems (pre ++ x :: post)) (pureMapper f)) s).1
        = pre.map (fun it => (f it.1 it.2).1)
    ∧ (Collect (Map (fromItems (pre ++ x :: post)) (pureMapper f)) s).1.length = pre.length
    ∧ (Collect (Map (fromItems genTest2EItems) (pureMapper (fun v _ => (v, none)))) ()).1
        = ["value1", "value2", "value3"] := by
  have key : ∀ (g : IN → Error → OUT × Error) (L : List (IN × Error)),
      (Collect (Map (fromItems L) (pureMapper g)) s).1 = valuesBeforeError (mapItems g L) := by
    intro g L
    have : Collect (Map (fromItems L) (pureMapper g)) s = Collect (fromItems (mapItems g L)) s := by
      simp only [Collect, map_fromItems]
    rw [this, collect_fromItems]
  have hcut : (Collect (Map (fromItems (pre ++ x :: post)) (pureMapper f)) s).1
      = pre.map (fun it => (f it.1 it.2).1) := by
    rw [key]
    obtain ⟨msg, hmsg⟩ := Option.ne_none_iff_exists.mp hx
    have hsplit : mapItems f (pre ++ x :: post)
        = mapItems f pre ++ ((f x.1 x.2).1, some msg) :: mapItems f post := by
      simp only [mapItems, List.map_append, List.map_cons]
      rw [hmsg]
    rw [hsplit, valuesBeforeError_error]
    · simp [mapItems, Function.comp_def]
    · intro it hit
      simp only [mapItems, List.mem_map] at hit
      obtain ⟨a, ha, rfl⟩ := hit
      exact hpre a ha
  refine ⟨key f, ?_, hcut, by rw [hcut, List.length_map], by decide⟩
  intro h L
  rw [key, valuesBeforeError_of_no_error]
  · simp [mapItems, Function.comp_def]
  · intro it hit
    simp only [mapItems, List.mem_map] at hit
    obtain ⟨a, _, rfl⟩ := hit
    rfl

/-- Witness of C15: over 1, 2, 3 a mapper that reports an error on the value 2. -/
theorem C15_map_collect_fails_on_mapped_error_witness :
    (Collect (Map (fromItems ([((1 : Nat), none)] ++ (2, none) :: [(3, none)]))
        (pureMapper (fun v e => (toString v, if v = 2 then some "two" else e)))) ()).1
      = [((1 : Nat), (none : Error))].map
          (fun it => ((fun (v : Nat) (e : Error) =>
            (toString v, if v = 2 then some "two" else e)) it.1 it.2).1) :=
  (C15_map_collect_fails_on_mapped_error
    (fun (v : Nat) (e : Error) => (toString v, if v = 2 then some "two" else e)) ()
    [((1 : Nat), none)] [(3, none)] (2, none) (by decide) (by decide)).2.2.1

/-! ## Empty expansions -/

theorem expandItems_skip {IN OUT : Type} (f : IN → Error → List OUT × Error)
    (pre post : List (IN × Error)) (x : IN × Error) (hx : (f x.1 x.2).1 = []) :
    expandItems f (pre ++ x :: post) = expandItems f (pre ++ post) := by
  simp [expandItems, expandItem, hx]

/-- C16: when the mapper returns an empty sequence for an inner element, the inner
callback of `MMap` invokes the outer callback not at all and returns true,
whatever error the mapper returned.  Over a list generator `MMap` then behaves,
for every callback, as if that element were not there: the same invocations, the
same `Collect`, the same `Seq`, and the same executions of `Chan` over its
producer body. -/
theorem C16_mmap_empty_expansion_is_silent {σ IN OUT : Type}
    (f : IN → Error → List OUT × Error) (pre post : List (IN × Error)) (x : IN × Error)
    (hx : (f x.1 x.2).1 = []) :
    (∀ (m : Mapper σ IN (List OUT)) (y : Yield σ OUT) (v : IN) (err : Error) (s : σ)
        (log : List (Call OUT)), (m v err s).1.1 = [] →
        mmapYield m y v err s = (true, (m v err s).2)
        ∧ mmapYield (liftMapper m) (traced y) v err (s, log) = (true, ((m v err s).2, log)))
    ∧ (∀ (y : Yield σ OUT) (s : σ),
        MMap (fromItems (pre ++ x :: post)) (pureMapper f) y s
          = MMap (fromItems (pre ++ post)) (pureMapper f) y s)
    ∧ (∀ (y : Yield σ OUT) (s : σ),
        calls (MMap (fromItems (pre ++ x :: post)) (pureMapper f)) y s
          = calls (MMap (fromItems (pre ++ post)) (pureMapper f)) y s)
    ∧ (∀ s : σ,
        Collect (MMap (fromItems (pre ++ x :: post)) (pureMapper f)) s
          = Collect (MMap (fromItems (pre ++ post)) (pureMapper f)) s)
    ∧ (∀ (p : Pull σ OUT) (s : σ),
        Seq (MMap (fromItems (pre ++ x :: post)) (pureMapper f)) p s
          = Seq (MMap (fromItems (pre ++ post)) (pureMapper f)) p s)
    ∧ (∀ (α : Type) (y : Yield (σ × α) OUT) (st : σ × α),
        (Script.ofItems (expandItems f (pre ++ x :: post))).run y st
          = MMap (fromItems (pre ++ x :: post)) (pureMapper f) y st)
    ∧ (∀ (signal : List OUT → Bool) (c : Bool) (s : σ) (moves : List Move),
        (Chan (Script.ofItems (expandItems f (pre ++ x :: post))) c s).exec signal moves
          = (Chan (Script.ofItems (expandItems f (pre ++ post))) c s).exec signal moves)
    ∧ (Collect (MMap (fromItems [((1 : Nat), none), (2, none), (3, none)])
          (pureMapper skipTwo)) ()).1 = ["1", "3", "3", "3"] := by
  have hskip := expandItems_skip f pre post x hx
  refine ⟨?_, ?_, ?_, ?_, ?_, ?_, ?_, by decide⟩
  · intro m y v err s log hm
    constructor
    · simp only [mmapYield, hm, rangeYield]
    · simp only [mmapYield, liftMapper, hm, rangeYield]
  · intro y s
    rw [mmap_fromItems, mmap_fromItems, hskip]
  · intro y s
    simp only [calls, mmap_fromItems, hskip]
  · intro s
    simp only [Collect, mmap_fromItems, hskip]
  · intro p s
    simp only [Seq, mmap_fromItems, hskip]
  · intro α y st
    rw [script_ofItems_run, mmap_fromItems]
  · intro signal c s moves
    rw [hskip]

/-- Witness of C16: over 1, 2, 3 with a mapper that returns nothing and an error
on 2, `Collect` returns the outputs of 1 and of 3. -/
theorem C16_mmap_empty_expansion_is_silent_witness :
    Collect (MMap (fromItems ([((1 : Nat), none)] ++ (2, none) :: [(3, none)]))
        (pureMapper skipTwo)) ()
      = Collect (MMap (fromItems ([((1 : Nat), none)] ++ [(3, none)])) (pureMapper skipTwo)) () :=
  (C16_mmap_empty_expansion_is_silent skipTwo [((1 : Nat), none)] [(3, none)] (2, none)
    (by decide)).2.2.2.1 ()

/-! ## Algebraic laws of Map and MMap -/

/-- C17: `Map` obeys the functor laws as equalities of generators: `Map(g, id)` is
`g`, and `Map(Map(g, f), h)` is `Map(g, h after f)`, for every generator and all
mappers, effects included; so both sides make the same invocations of every
callback.  For effect-free mappers `h after f` is the composite function. -/
theorem C17_map_functor_laws {σ A B C : Type} :
    (∀ g : Generator σ A, Map g idMapper = g)
    ∧ (∀ (g : Generator σ A) (f : Mapper σ A B) (h : Mapper σ B C),
        Map (Map g f) h = Map g (afterMapper h f))
    ∧ (∀ (g : Generator (σ × List (Call A)) A) (y : Yield σ A) (s : σ),
        calls (Map g idMapper) y s = calls g y s)
    ∧ (∀ (g : Generator (σ × List (Call C)) A) (f : Mapper (σ × List (Call C)) A B)
        (h : Mapper (σ × List (Call C)) B C) (y : Yield σ C) (s : σ),
        calls (Map (Map g f) h) y s = calls (Map g (afterMapper h f)) y s)
    ∧ (∀ (f : A → Error → B × Error) (h : B → Error → C × Error),
        afterMapper (pureMapper h) (pureMapper f)
          = (pureMapper (fun v err => h (f v err).1 (f v err).2) : Mapper σ A C))
    ∧ (Collect (Map (Map (fromItems [((1 : Nat), none), (2, none), (3, none)])
          (pureMapper (fun t err => (t * 2, err))))
          (pureMapper (fun t err => (toString t, err)))) ()).1 = ["2", "4", "6"] := by
  refine ⟨fun _ => rfl, fun _ _ _ => rfl, fun _ _ _ => rfl, fun _ _ _ _ _ => rfl,
    fun _ _ => rfl, by decide⟩

/-- C18: the inner callback that `MMap` builds from the one-element multi-mapper of
`f` is the inner callback that `Map` builds from `f`: same invocation of the
outer callback, same boolean returned, same state.  Hence `MMap` with that
multi-mapper is `Map(g, f)` for every generator, and both make the same
invocations of every outer callback. -/
theorem C18_mmap_singleton_is_map {σ IN OUT : Type} :
    (∀ (f : Mapper σ IN OUT) (y : Yield σ OUT), mmapYield (singletonMapper f) y = mapYield f y)
    ∧ (∀ (g : Generator σ IN) (f : Mapper σ IN OUT), MMap g (singletonMapper f) = Map g f)
    ∧ (∀ (g : Generator (σ × List (Call OUT)) IN) (f : Mapper (σ × List (Call OUT)) IN OUT)
        (y : Yield σ OUT) (s : σ),
        calls (MMap g (singletonMapper f)) y s = calls (Map g f) y s)
    ∧ (∀ (t : Script σ IN) (f : Mapper σ IN OUT) (y : Yield σ OUT) (s : σ),
        calls t.run (mmapYield (singletonMapper f) y) s = calls t.run (mapYield f y) s) := by
  have hyield : ∀ {ρ : Type} (f : Mapper ρ IN OUT) (y : Yield ρ OUT),
      mmapYield (singletonMapper f) y = mapYield f y := by
    intro ρ f y
    funext v err s
    simp only [mmapYield, singletonMapper, rangeYield, mapYield]
    by_cases h : (y (f v err s).1.1 (f v err s).1.2 (f v err s).2).1 = true
    · rw [if_pos h]
      exact Prod.ext h.symm rfl
    · rw [if_neg h]
      have hf : (y (f v err s).1.1 (f v err s).1.2 (f v err s).2).1 = false := by
        simpa using h
      exact Prod.ext hf.symm rfl
  have hgen : ∀ {ρ : Type} (g : Generator ρ IN) (f : Mapper ρ IN OUT),
      MMap g (singletonMapper f) = Map g f := by
    intro ρ g f
    funext y
    simp only [MMap, Map, hyield]
  refine ⟨fun f y => hyield f y, fun g f => hgen g f, ?_, ?_⟩
  · intro g f y s
    rw [hgen]
  · intro t f y s
    rw [hyield]

end generator
